import Mathlib

/-!
Verification of the `seeyou-cupx` container reader/writer.

The crate locates two ZIP archives concatenated in one byte stream
(a "pictures" archive followed by a "points" archive), exposes the
waypoint data and the pictures, and provides the inverse writer.

Byte streams are modelled as `List Nat` (one element per byte).
The crate's own logic (the EOCD boundary locator in
`src/reader.rs::CupxFile::from_reader_inner`, the `pics/` name handling
in `read_picture` / `picture_names`, the filename validation in
`src/writer.rs::CupxWriter::write`, and the bounded substream in
`src/limited_reader.rs`) is translated directly from the source.
The external collaborators (the `zip` archive library and the
`seeyou_cup` waypoint library) are out of scope of the specification
and are modelled from the spec's description of their interfaces
(section 6 of the spec gives the EOCD wire layout; the collaborator
contract is `parse(serialize(M)) = (M, no diagnostics)`).
-/

namespace Cupx

/-! ## Basic byte-level codec helpers (spec-modelled collaborator encoding)

Modelled from the spec: the external archive and waypoint libraries
serialize entries into bytes.  We use a self-delimiting base-16 digit
encoding for numbers and payload bytes; every emitted byte is ≤ 16,
so the EOCD signature bytes `80 75 5 6` ("PK\x05\x06") can never occur
inside serialized entry data.  This realises the spec's assertion that
"the true EOCD records are, by construction, the last two occurrences". -/

/-- Little-endian base-16 digits (the fuel argument makes the recursion
structural; `fuel ≥ n` always holds where it is used). -/
def natDigitsAux : Nat → Nat → List Nat
  | _, 0 => []
  | 0, _ + 1 => []
  | fuel + 1, n + 1 => (n + 1) % 16 :: natDigitsAux fuel ((n + 1) / 16)

/-- Little-endian base-16 digits of `n` (empty for 0); every digit is `< 16`. -/
def natDigits (n : Nat) : List Nat := natDigitsAux n n

theorem natDigitsAux_congr :
    ∀ f1 f2 n, n ≤ f1 → n ≤ f2 → natDigitsAux f1 n = natDigitsAux f2 n := by
  intro f1
  induction f1 with
  | zero =>
    intro f2 n h1 _
    interval_cases n
    cases f2 <;> rfl
  | succ g1 ih =>
    intro f2 n h1 h2
    match n, f2 with
    | 0, f2 => cases f2 <;> rfl
    | m + 1, 0 => omega
    | m + 1, g2 + 1 =>
      show (m + 1) % 16 :: natDigitsAux g1 ((m + 1) / 16) =
        (m + 1) % 16 :: natDigitsAux g2 ((m + 1) / 16)
      have hdiv : (m + 1) / 16 ≤ m := by
        have := Nat.div_lt_self (Nat.succ_pos m) (show 1 < 16 by norm_num)
        omega
      rw [ih g2 ((m + 1) / 16) (by omega) (by omega)]

theorem natDigits_succ (n : Nat) :
    natDigits (n + 1) = (n + 1) % 16 :: natDigits ((n + 1) / 16) := by
  show natDigitsAux (n + 1) (n + 1) = (n + 1) % 16 :: natDigitsAux ((n + 1) / 16) ((n + 1) / 16)
  show (n + 1) % 16 :: natDigitsAux n ((n + 1) / 16) =
    (n + 1) % 16 :: natDigitsAux ((n + 1) / 16) ((n + 1) / 16)
  have hdiv : (n + 1) / 16 ≤ n := by
    have := Nat.div_lt_self (Nat.succ_pos n) (show 1 < 16 by norm_num)
    omega
  rw [natDigitsAux_congr n ((n + 1) / 16) ((n + 1) / 16) (by omega) (by omega)]

/-- Value of a little-endian base-16 digit list. -/
def digitsVal (ds : List Nat) : Nat := ds.foldr (fun d acc => d + 16 * acc) 0

/-- Self-delimiting encoding of a natural number: digits then the sentinel `16`. -/
def natEnc (n : Nat) : List Nat := natDigits n ++ [16]

/-- Encoding of a byte list: each byte self-delimitingly encoded. -/
def encB (l : List Nat) : List Nat := l.flatMap natEnc

/-- Split a digit run at the first sentinel `16`. -/
def splitDigits : List Nat → Option (List Nat × List Nat)
  | [] => none
  | x :: rest =>
    if x = 16 then some ([], rest)
    else match splitDigits rest with
      | some (ds, r) => some (x :: ds, r)
      | none => none

/-- Decode one self-delimiting natural number. -/
def decodeNum (l : List Nat) : Option (Nat × List Nat) :=
  (splitDigits l).map (fun p => (digitsVal p.1, p.2))

/-- Decode `k` self-delimiting numbers (the bytes of a payload of known length). -/
def decodeBytes : Nat → List Nat → Option (List Nat × List Nat)
  | 0, l => some ([], l)
  | k + 1, l =>
    match decodeNum l with
    | none => none
    | some (b, r) =>
      match decodeBytes k r with
      | none => none
      | some (bs, r2) => some (b :: bs, r2)

theorem natDigits_lt (n : Nat) : ∀ d ∈ natDigits n, d < 16 := by
  induction n using Nat.strong_induction_on with
  | _ n ih =>
    match n with
    | 0 => simp [natDigits, natDigitsAux]
    | m + 1 =>
      rw [natDigits_succ]
      intro d hd
      rcases List.mem_cons.mp hd with h | h
      · subst h; exact Nat.mod_lt _ (by norm_num)
      · exact ih ((m + 1) / 16) (Nat.div_lt_self (Nat.succ_pos m) (by norm_num)) d h

theorem digitsVal_natDigits (n : Nat) : digitsVal (natDigits n) = n := by
  induction n using Nat.strong_induction_on with
  | _ n ih =>
    match n with
    | 0 => simp [natDigits, natDigitsAux, digitsVal]
    | m + 1 =>
      rw [natDigits_succ]
      have h := ih ((m + 1) / 16) (Nat.div_lt_self (Nat.succ_pos m) (by norm_num))
      simp only [digitsVal, List.foldr_cons] at *
      rw [h]
      omega

theorem splitDigits_append (ds rest : List Nat) (h : ∀ d ∈ ds, d < 16) :
    splitDigits (ds ++ 16 :: rest) = some (ds, rest) := by
  induction ds with
  | nil => simp [splitDigits]
  | cons x t ih =>
    have hx : x < 16 := h x (List.mem_cons_self x t)
    have ht : ∀ d ∈ t, d < 16 := fun d hd => h d (List.mem_cons_of_mem x hd)
    simp only [List.cons_append, splitDigits]
    rw [if_neg (by omega)]
    simp only [List.append_eq]
    rw [ih ht]

theorem decodeNum_natEnc (n : Nat) (rest : List Nat) :
    decodeNum (natEnc n ++ rest) = some (n, rest) := by
  simp only [decodeNum, natEnc, List.append_assoc, List.cons_append, List.nil_append]
  rw [splitDigits_append _ _ (natDigits_lt n)]
  simp [digitsVal_natDigits]

theorem decodeBytes_encB (l rest : List Nat) :
    decodeBytes l.length (encB l ++ rest) = some (l, rest) := by
  induction l generalizing rest with
  | nil => simp [decodeBytes, encB]
  | cons b t ih =>
    simp only [encB, List.flatMap_cons, List.length_cons, decodeBytes, List.append_assoc]
    rw [decodeNum_natEnc]
    simp only []
    rw [show (t.flatMap natEnc) = encB t from rfl, ih rest]

theorem natEnc_ne_nil (n : Nat) : natEnc n ≠ [] := by
  simp [natEnc]

theorem mem_natEnc_le (n : Nat) : ∀ b ∈ natEnc n, b ≤ 16 := by
  intro b hb
  rcases List.mem_append.mp hb with h | h
  · exact Nat.le_of_lt (natDigits_lt n b h)
  · simp only [List.mem_singleton] at h; omega

theorem mem_encB_le (l : List Nat) : ∀ b ∈ encB l, b ≤ 16 := by
  intro b hb
  rcases List.mem_flatMap.mp hb with ⟨x, _, hbx⟩
  exact mem_natEnc_le x b hbx

/-! ## Archive encoding (spec-modelled `zip` collaborator)

Modelled from the spec, section 6: each archive is a table of entries
followed by a standard EOCD record — "4-byte signature `50 4B 05 06`,
fixed 18 more bytes of fields, then a 2-byte little-endian comment
length (offset 20 within the record)".  The writer always emits a zero
comment length, as the `zip` crate's `ZipWriter` does.  The 16 field
bytes carry the length of the entry table (the central directory),
fixed-width so the record is exactly 22 bytes. -/

/-- Fixed-width little-endian base-16 digits: `k` digits of `t`. -/
def fixDigits : Nat → Nat → List Nat
  | 0, _ => []
  | k + 1, t => t % 16 :: fixDigits k (t / 16)

/-- Value of a fixed-width digit list (same positional scheme as `digitsVal`). -/
def val16 (ds : List Nat) : Nat := ds.foldr (fun d acc => d + 16 * acc) 0

/-- One archive entry: self-delimited name length, name bytes, data length, data bytes. -/
def encEntry (e : List Nat × List Nat) : List Nat :=
  natEnc e.1.length ++ encB e.1 ++ natEnc e.2.length ++ encB e.2

/-- The entry table (central directory) of an archive. -/
def tableOf (es : List (List Nat × List Nat)) : List Nat :=
  (es.map encEntry).flatten

/-- The EOCD signature bytes `50 4B 05 06` ("PK\x05\x06"),
from `src/reader.rs` (`EOCD_SIGNATURE`). -/
def eocdSig : List Nat := [80, 75, 5, 6]

/-- A full encoded archive: entry table, then the 22-byte EOCD record
(signature, 16 field bytes holding the table length, comment length 0). -/
def zipEncode (es : List (List Nat × List Nat)) : List Nat :=
  tableOf es ++ eocdSig ++ fixDigits 16 (tableOf es).length ++ [0, 0]

/-- Decode one entry from the front of a table. -/
def decodeEntry (l : List Nat) : Option ((List Nat × List Nat) × List Nat) :=
  match decodeNum l with
  | none => none
  | some (nlen, r1) =>
    match decodeBytes nlen r1 with
    | none => none
    | some (nm, r2) =>
      match decodeNum r2 with
      | none => none
      | some (dlen, r3) =>
        match decodeBytes dlen r3 with
        | none => none
        | some (d, r4) => some ((nm, d), r4)

/-- Decode all entries of a table (fuel bounds the number of entries;
each entry consumes at least one byte). -/
def decodeEntries : Nat → List Nat → Option (List (List Nat × List Nat))
  | _, [] => some []
  | 0, _ :: _ => none
  | fuel + 1, x :: xs =>
    match decodeEntry (x :: xs) with
    | none => none
    | some (e, r) =>
      match decodeEntries fuel r with
      | none => none
      | some es => some (e :: es)

theorem decodeEntry_encEntry (e : List Nat × List Nat) (rest : List Nat) :
    decodeEntry (encEntry e ++ rest) = some (e, rest) := by
  simp only [decodeEntry, encEntry, List.append_assoc]
  rw [decodeNum_natEnc]
  simp only []
  rw [decodeBytes_encB]
  simp only []
  rw [decodeNum_natEnc]
  simp only []
  rw [decodeBytes_encB]

theorem encEntry_ne_nil (e : List Nat × List Nat) : encEntry e ≠ [] := by
  simp [encEntry, natEnc]

theorem decodeEntries_tableOf (es : List (List Nat × List Nat)) :
    ∀ fuel, (tableOf es).length ≤ fuel → decodeEntries fuel (tableOf es) = some es := by
  induction es with
  | nil =>
    intro fuel _
    simp only [tableOf, List.map_nil, List.flatten_nil]
    cases fuel <;> rfl
  | cons e t ih =>
    intro fuel hfuel
    have htab : tableOf (e :: t) = encEntry e ++ tableOf t := by
      simp [tableOf]
    rw [htab] at hfuel ⊢
    have hne : encEntry e ++ tableOf t ≠ [] := by
      simp [encEntry_ne_nil e]
    have hlen : 1 ≤ (encEntry e).length := by
      cases h : encEntry e with
      | nil => exact absurd h (encEntry_ne_nil e)
      | cons a b => simp
    rw [List.length_append] at hfuel
    obtain ⟨f, rfl⟩ : ∃ f, fuel = f + 1 := ⟨fuel - 1, by omega⟩
    cases hmatch : encEntry e ++ tableOf t with
    | nil => exact absurd hmatch hne
    | cons x xs =>
      simp only [decodeEntries]
      rw [← hmatch, decodeEntry_encEntry]
      simp only []
      rw [ih f (by omega)]

theorem mem_tableOf_le (es : List (List Nat × List Nat)) : ∀ b ∈ tableOf es, b ≤ 16 := by
  intro b hb
  rcases List.mem_flatten.mp hb with ⟨l, hl, hbl⟩
  rcases List.mem_map.mp hl with ⟨e, _, rfl⟩
  simp only [encEntry, List.mem_append] at hbl
  rcases hbl with ((h | h) | h) | h
  · exact mem_natEnc_le _ b h
  · exact mem_encB_le _ b h
  · exact mem_natEnc_le _ b h
  · exact mem_encB_le _ b h

theorem fixDigits_lt (k t : Nat) : ∀ d ∈ fixDigits k t, d < 16 := by
  induction k generalizing t with
  | zero => simp [fixDigits]
  | succ k ih =>
    intro d hd
    rw [fixDigits] at hd
    rcases List.mem_cons.mp hd with h | h
    · subst h; exact Nat.mod_lt _ (by norm_num)
    · exact ih (t / 16) d h

theorem length_fixDigits (k t : Nat) : (fixDigits k t).length = k := by
  induction k generalizing t with
  | zero => rfl
  | succ k ih => rw [fixDigits]; simp [ih]

theorem val16_fixDigits (k t : Nat) : val16 (fixDigits k t) = t % 16 ^ k := by
  induction k generalizing t with
  | zero => simp [fixDigits, val16, Nat.mod_one]
  | succ k ih =>
    rw [fixDigits]
    simp only [val16, List.foldr_cons] at *
    rw [ih (t / 16)]
    rw [pow_succ, mul_comm (16 ^ k) 16, Nat.mod_mul]

theorem length_zipEncode (es : List (List Nat × List Nat)) :
    (zipEncode es).length = (tableOf es).length + 22 := by
  simp [zipEncode, eocdSig, length_fixDigits]

/-! ## EOCD signature occurrences -/

/-- `sigAt s i`: the 4-byte EOCD signature occurs at offset `i` of `s`
(what `memchr::memmem::find_iter(&buffer, EOCD_SIGNATURE)` reports). -/
def sigAt (s : List Nat) (i : Nat) : Bool :=
  s[i]? == some 80 && s[i + 1]? == some 75 && s[i + 2]? == some 5 && s[i + 3]? == some 6

/-- All offsets of EOCD signature occurrences in `s`, in ascending order. -/
def sigOffsets (s : List Nat) : List Nat :=
  (List.range s.length).filter (fun i => sigAt s i)

theorem mem_sigOffsets (s : List Nat) (i : Nat) :
    i ∈ sigOffsets s ↔ sigAt s i = true := by
  constructor
  · intro h
    exact (List.mem_filter.mp h).2
  · intro h
    refine List.mem_filter.mpr ⟨List.mem_range.mpr ?_, h⟩
    have h80 : s[i]? = some 80 := by
      have := h
      simp only [sigAt, Bool.and_eq_true, beq_iff_eq] at this
      exact this.1.1.1
    by_contra hlt
    rw [List.getElem?_eq_none (by omega)] at h80
    cases h80

theorem sigOffsets_sorted (s : List Nat) : (sigOffsets s).Pairwise (· < ·) :=
  (List.pairwise_lt_range s.length).filter _

/-- A `Pairwise (· < ·)` list whose members are exactly `{x}` is `[x]`. -/
theorem sorted_eq_singleton {l : List Nat} {x : Nat}
    (hs : l.Pairwise (· < ·)) (hm : ∀ y, y ∈ l ↔ y = x) : l = [x] := by
  cases l with
  | nil => exact absurd ((hm x).mpr rfl) (List.not_mem_nil x)
  | cons a t =>
    have ha : a = x := (hm a).mp (List.mem_cons_self a t)
    subst ha
    cases t with
    | nil => rfl
    | cons b u =>
      have hb : b = a := (hm b).mp (List.mem_cons_of_mem a (List.mem_cons_self b u))
      have := (List.pairwise_cons.mp hs).1 b (List.mem_cons_self b u)
      omega

/-- A `Pairwise (· < ·)` list whose members are exactly `{x, y}` with `x < y` is `[x, y]`. -/
theorem sorted_eq_pair {l : List Nat} {x y : Nat} (hxy : x < y)
    (hs : l.Pairwise (· < ·)) (hm : ∀ z, z ∈ l ↔ z = x ∨ z = y) : l = [x, y] := by
  cases l with
  | nil => exact absurd ((hm x).mpr (Or.inl rfl)) (List.not_mem_nil x)
  | cons a t =>
    have hat : ∀ z ∈ t, a < z := (List.pairwise_cons.mp hs).1
    have hts : t.Pairwise (· < ·) := (List.pairwise_cons.mp hs).2
    have ha : a = x ∨ a = y := (hm a).mp (List.mem_cons_self a t)
    have hxmem : x ∈ a :: t := (hm x).mpr (Or.inl rfl)
    have hymem : y ∈ a :: t := (hm y).mpr (Or.inr rfl)
    have hax : a = x := by
      rcases ha with h | h
      · exact h
      · subst h
        rcases List.mem_cons.mp hxmem with h | h
        · omega
        · have := hat x h; omega
    subst hax
    have hyt : y ∈ t := by
      rcases List.mem_cons.mp hymem with h | h
      · omega
      · exact h
    have ht : t = [y] := by
      apply sorted_eq_singleton hts
      intro z
      constructor
      · intro hz
        rcases (hm z).mp (List.mem_cons_of_mem a hz) with h | h
        · have := hat z hz; omega
        · exact h
      · intro hz; subst hz; exact hyt
    rw [ht]

/-- The maximum member of a `Pairwise (· < ·)` list is its last element. -/
theorem sorted_getLast?_eq {l : List Nat} {x : Nat}
    (hs : l.Pairwise (· < ·)) (hx : x ∈ l) (hmax : ∀ y ∈ l, y ≤ x) :
    l.getLast? = some x := by
  induction l with
  | nil => exact absurd hx (List.not_mem_nil x)
  | cons a t ih =>
    cases t with
    | nil =>
      rcases List.mem_cons.mp hx with h | h
      · subst h; rfl
      · exact absurd h (List.not_mem_nil x)
    | cons b u =>
      have hat : ∀ z ∈ b :: u, a < z := (List.pairwise_cons.mp hs).1
      have hxt : x ∈ b :: u := by
        rcases List.mem_cons.mp hx with h | h
        · subst h
          have h1 := hat b (List.mem_cons_self b u)
          have h2 := hmax b (List.mem_cons_of_mem x (List.mem_cons_self b u))
          omega
        · exact h
      rw [List.getLast?_cons_cons]
      exact ih (List.pairwise_cons.mp hs).2 hxt
        (fun y hy => hmax y (List.mem_cons_of_mem a hy))

/-! ## Byte analysis of encoded archives -/

/-- Everything of an encoded archive after the signature's first byte. -/
def zipTail (es : List (List Nat × List Nat)) : List Nat :=
  75 :: 5 :: 6 :: (fixDigits 16 (tableOf es).length ++ [0, 0])

theorem zipEncode_parts (es : List (List Nat × List Nat)) :
    zipEncode es = tableOf es ++ 80 :: zipTail es := by
  simp [zipEncode, zipTail, eocdSig]

theorem mem_zipTail_ne (es : List (List Nat × List Nat)) :
    ∀ b ∈ zipTail es, b ≠ 80 := by
  intro b hb
  simp only [zipTail] at hb
  rcases List.mem_cons.mp hb with h | hb2
  · omega
  rcases List.mem_cons.mp hb2 with h | hb3
  · omega
  rcases List.mem_cons.mp hb3 with h | hb4
  · omega
  rcases List.mem_append.mp hb4 with h | h
  · have := fixDigits_lt 16 (tableOf es).length b h
    omega
  · rcases List.mem_cons.mp h with h1 | h1
    · omega
    · rcases List.mem_cons.mp h1 with h2 | h2
      · omega
      · exact absurd h2 (List.not_mem_nil b)

theorem byte80_zipEncode (es : List (List Nat × List Nat)) (i : Nat) :
    (zipEncode es)[i]? = some 80 ↔ i = (tableOf es).length := by
  rw [zipEncode_parts]
  constructor
  · intro h
    by_contra hne
    rcases Nat.lt_or_ge i (tableOf es).length with hlt | hge
    · rw [List.getElem?_append_left hlt] at h
      have := mem_tableOf_le es 80 (List.getElem?_mem h)
      omega
    · rw [List.getElem?_append_right hge] at h
      have hpos : 1 ≤ i - (tableOf es).length := by omega
      cases hd : (i - (tableOf es).length) with
      | zero => omega
      | succ k =>
        rw [hd] at h
        simp only [List.getElem?_cons_succ] at h
        exact absurd rfl (mem_zipTail_ne es 80 (List.getElem?_mem h))
  · intro h
    subst h
    rw [List.getElem?_append_right (Nat.le_refl _), Nat.sub_self]
    rfl

theorem getElem?_append_add (u v : List Nat) (i : Nat) :
    (u ++ v)[u.length + i]? = v[i]? := by
  rw [List.getElem?_append_right (by omega)]
  congr 1
  omega

theorem sigAt_append_right (u v : List Nat) (i : Nat) :
    sigAt (u ++ v) (u.length + i) = sigAt v i := by
  simp only [sigAt]
  rw [show u.length + i + 1 = u.length + (i + 1) by omega,
    show u.length + i + 2 = u.length + (i + 2) by omega,
    show u.length + i + 3 = u.length + (i + 3) by omega,
    getElem?_append_add, getElem?_append_add, getElem?_append_add, getElem?_append_add]

theorem sigAt_append_left (u v : List Nat) (i : Nat) (h : i + 4 ≤ u.length) :
    sigAt (u ++ v) i = sigAt u i := by
  simp only [sigAt]
  rw [List.getElem?_append_left (by omega), List.getElem?_append_left (by omega),
    List.getElem?_append_left (by omega), List.getElem?_append_left (by omega)]

theorem sigAt_zipEncode_self (es : List (List Nat × List Nat)) :
    sigAt (zipEncode es) (tableOf es).length = true := by
  rw [zipEncode_parts]
  have h := sigAt_append_right (tableOf es) (80 :: zipTail es) 0
  rw [Nat.add_zero] at h
  rw [h]
  simp [sigAt, zipTail]

theorem byte80_of_sigAt {s : List Nat} {i : Nat} (h : sigAt s i = true) :
    s[i]? = some 80 := by
  simp only [sigAt, Bool.and_eq_true, beq_iff_eq] at h
  exact h.1.1.1

theorem zipEncode_getElem_add (es : List (List Nat × List Nat)) (i : Nat) :
    (zipEncode es)[(tableOf es).length + i]? = (80 :: zipTail es)[i]? := by
  rw [zipEncode_parts, getElem?_append_add]

/-- Bytes of the 22-byte EOCD record of `zipEncode es`, looked up through an
arbitrary prefix `J`: offset 20 and 21 within the record hold the comment
length 0. -/
theorem comment_bytes_append (J : List Nat) (es : List (List Nat × List Nat)) :
    (J ++ zipEncode es)[J.length + (tableOf es).length + 20]? = some 0 ∧
    (J ++ zipEncode es)[J.length + (tableOf es).length + 21]? = some 0 := by
  have h20 : (80 :: zipTail es)[20]? = some 0 := by
    simp only [zipTail, List.getElem?_cons_succ]
    rw [List.getElem?_append_right (by simp [length_fixDigits]), length_fixDigits]
    rfl
  have h21 : (80 :: zipTail es)[21]? = some 0 := by
    simp only [zipTail, List.getElem?_cons_succ]
    rw [List.getElem?_append_right (by simp [length_fixDigits]), length_fixDigits]
    rfl
  constructor
  · rw [show J.length + (tableOf es).length + 20 = J.length + ((tableOf es).length + 20) by omega,
      getElem?_append_add, zipEncode_getElem_add, h20]
  · rw [show J.length + (tableOf es).length + 21 = J.length + ((tableOf es).length + 21) by omega,
      getElem?_append_add, zipEncode_getElem_add, h21]

/-- No EOCD signature occurrence strictly after the archive's own EOCD
signature, whatever precedes the archive. -/
theorem sig_le_append (J : List Nat) (es : List (List Nat × List Nat)) (i : Nat)
    (h : sigAt (J ++ zipEncode es) i = true) :
    i ≤ J.length + (tableOf es).length := by
  by_contra hgt
  have h80 := byte80_of_sigAt h
  rw [List.getElem?_append_right (by omega)] at h80
  have := (byte80_zipEncode es (i - J.length)).mp h80
  omega

/-- The last EOCD signature occurrence in `J ++ zipEncode es` is the
archive's own, at `|J| + |table|`. -/
theorem sig_last_append (J : List Nat) (es : List (List Nat × List Nat)) :
    (sigOffsets (J ++ zipEncode es)).getLast? = some (J.length + (tableOf es).length) := by
  apply sorted_getLast?_eq (sigOffsets_sorted _)
  · rw [mem_sigOffsets]
    have := sigAt_append_right J (zipEncode es) (tableOf es).length
    rw [this]
    exact sigAt_zipEncode_self es
  · intro y hy
    exact sig_le_append J es y ((mem_sigOffsets _ _).mp hy)

/-! ## The backward chunked EOCD scan of `CupxFile::from_reader_inner`
(src/reader.rs lines 113-154) -/

/-- `CHUNK_SIZE` (64 KiB) from `src/reader.rs`. -/
def chunkSize : Nat := 65536

/-- Last and second-to-last elements of an ascending occurrence list: the
result of the `prev`/`current` fold over `find_iter` in the source. -/
def lastTwo (occs : List Nat) : Option Nat × Option Nat :=
  (occs.getLast?, occs.dropLast.getLast?)

/-- One merge step of the incremental search: "first chunk provides both,
subsequent chunks provide second-to-last" (src/reader.rs lines 145-151). -/
def scanStep (last second chunkLast chunkSecond : Option Nat) : Option Nat × Option Nat :=
  if last.isNone then (chunkLast, chunkSecond)
  else if second.isNone && chunkLast.isSome then (last, chunkLast)
  else (last, second)

/-- Absolute offsets of the signature occurrences `find_iter` reports for the
chunk `[search_end - min(CHUNK_SIZE, search_end), search_end)`. -/
def chunkOccs (s : List Nat) (searchEnd : Nat) : List Nat :=
  (sigOffsets ((s.drop (searchEnd - min chunkSize searchEnd)).take (min chunkSize searchEnd))).map
    (fun i => i + (searchEnd - min chunkSize searchEnd))

/-- The backward chunk loop: "Search backwards in chunks until we find 2 EOCDs
or reach the beginning" (src/reader.rs lines 127-154). -/
def scanLoop (s : List Nat) (searchEnd : Nat) (last second : Option Nat) :
    Option Nat × Option Nat :=
  if h : second = none ∧ 0 < searchEnd then
    scanLoop s (searchEnd - min chunkSize searchEnd)
      (scanStep last second (lastTwo (chunkOccs s searchEnd)).1 (lastTwo (chunkOccs s searchEnd)).2).1
      (scanStep last second (lastTwo (chunkOccs s searchEnd)).1 (lastTwo (chunkOccs s searchEnd)).2).2
  else (last, second)
termination_by searchEnd
decreasing_by
  have h2 := h.2
  have hmin : 0 < min chunkSize searchEnd := by
    simp only [chunkSize]
    omega
  omega

/-- The whole backward search: `(last_eocd, second_last_eocd)` after the loop. -/
def scanEocds (s : List Nat) : Option Nat × Option Nat :=
  scanLoop s s.length none none

/-- Whether the 4-byte window at offset `o` lies inside a single chunk of the
backward search over a stream of length `total` (a window that spans a chunk
boundary is invisible to the per-chunk `find_iter`). -/
def found (total o : Nat) : Bool :=
  decide (total - ((total - (o + 4)) / chunkSize + 1) * chunkSize ≤ o)

/-- The signature occurrences the backward search can see. -/
def foundOccs (s : List Nat) : List Nat :=
  (sigOffsets s).filter (fun o => found s.length o)

theorem foundOccs_sorted (s : List Nat) : (foundOccs s).Pairwise (· < ·) :=
  (sigOffsets_sorted s).filter _

/-- Two strictly ascending lists with the same members are equal. -/
theorem sorted_eq_of_mem_iff {l₁ l₂ : List Nat}
    (h₁ : l₁.Pairwise (· < ·)) (h₂ : l₂.Pairwise (· < ·))
    (hm : ∀ x, x ∈ l₁ ↔ x ∈ l₂) : l₁ = l₂ := by
  induction l₁ generalizing l₂ with
  | nil =>
    cases l₂ with
    | nil => rfl
    | cons b u => exact absurd ((hm b).mpr (List.mem_cons_self b u)) (List.not_mem_nil b)
  | cons a t ih =>
    cases l₂ with
    | nil => exact absurd ((hm a).mp (List.mem_cons_self a t)) (List.not_mem_nil a)
    | cons b u =>
      have hat : ∀ z ∈ t, a < z := (List.pairwise_cons.mp h₁).1
      have hbu : ∀ z ∈ u, b < z := (List.pairwise_cons.mp h₂).1
      have hab : a = b := by
        rcases List.mem_cons.mp ((hm a).mp (List.mem_cons_self a t)) with h | h
        · exact h
        · have h1 := hbu a h
          rcases List.mem_cons.mp ((hm b).mpr (List.mem_cons_self b u)) with h' | h'
          · omega
          · have := hat b h'; omega
      subst hab
      have ht : t = u := by
        apply ih (List.pairwise_cons.mp h₁).2 (List.pairwise_cons.mp h₂).2
        intro x
        constructor
        · intro hx
          rcases List.mem_cons.mp ((hm x).mp (List.mem_cons_of_mem a hx)) with h | h
          · have := hat x hx; omega
          · exact h
        · intro hx
          rcases List.mem_cons.mp ((hm x).mpr (List.mem_cons_of_mem a hx)) with h | h
          · have := hbu x hx; omega
          · exact h
      rw [ht]

theorem sigAt_chunk (s : List Nat) (cst csz i : Nat) :
    sigAt ((s.drop cst).take csz) i = true ↔ (sigAt s (cst + i) = true ∧ i + 4 ≤ csz) := by
  constructor
  · intro h
    have hlen : i + 4 ≤ csz := by
      have h6 : ((s.drop cst).take csz)[i + 3]? = some 6 := by
        simp only [sigAt, Bool.and_eq_true, beq_iff_eq] at h
        exact h.2
      by_contra hc
      rw [List.getElem?_eq_none (by simp [List.length_take]; omega)] at h6
      cases h6
    refine ⟨?_, hlen⟩
    simp only [sigAt, Bool.and_eq_true, beq_iff_eq] at h ⊢
    rw [List.getElem?_take_of_lt (by omega), List.getElem?_drop] at h
    rw [List.getElem?_take_of_lt (by omega), List.getElem?_drop] at h
    rw [List.getElem?_take_of_lt (by omega), List.getElem?_drop] at h
    rw [List.getElem?_take_of_lt (by omega), List.getElem?_drop] at h
    rw [show cst + i + 1 = cst + (i + 1) by omega, show cst + i + 2 = cst + (i + 2) by omega,
      show cst + i + 3 = cst + (i + 3) by omega]
    exact h
  · intro ⟨h, hlen⟩
    simp only [sigAt, Bool.and_eq_true, beq_iff_eq] at h ⊢
    rw [List.getElem?_take_of_lt (by omega), List.getElem?_drop]
    rw [List.getElem?_take_of_lt (by omega), List.getElem?_drop]
    rw [List.getElem?_take_of_lt (by omega), List.getElem?_drop]
    rw [List.getElem?_take_of_lt (by omega), List.getElem?_drop]
    rw [show cst + i + 1 = cst + (i + 1) by omega, show cst + i + 2 = cst + (i + 2) by omega,
      show cst + i + 3 = cst + (i + 3) by omega] at h
    exact h

theorem sigAt_window_le {s : List Nat} {o : Nat} (h : sigAt s o = true) : o + 4 ≤ s.length := by
  have h6 : s[o + 3]? = some 6 := by
    simp only [sigAt, Bool.and_eq_true, beq_iff_eq] at h
    exact h.2
  by_contra hc
  rw [List.getElem?_eq_none (by omega)] at h6
  cases h6

theorem mem_chunkOccs (s : List Nat) (e o : Nat) :
    o ∈ chunkOccs s e ↔
      (sigAt s o = true ∧ e - min chunkSize e ≤ o ∧ o + 4 ≤ e) := by
  have hsum : e - min chunkSize e + min chunkSize e = e := by omega
  constructor
  · intro h
    rcases List.mem_map.mp h with ⟨i, hi, rfl⟩
    have := (sigAt_chunk s (e - min chunkSize e) (min chunkSize e) i).mp
      ((mem_sigOffsets _ _).mp hi)
    rw [Nat.add_comm i (e - min chunkSize e)] at *
    exact ⟨this.1, by omega, by omega⟩
  · intro ⟨hsig, hlo, hhi⟩
    refine List.mem_map.mpr ⟨o - (e - min chunkSize e), ?_, by omega⟩
    rw [mem_sigOffsets]
    apply (sigAt_chunk s (e - min chunkSize e) (min chunkSize e) _).mpr
    constructor
    · rw [show e - min chunkSize e + (o - (e - min chunkSize e)) = o by omega]
      exact hsig
    · omega

/-- Arithmetic core: within the chunk `[cst, e)` (with `e` the canonical chunk
limit `total - k * chunkSize`), the windows `find_iter` can see are exactly the
`found` windows that start in `[cst, e)`. -/
theorem found_window_iff (total o k : Nat) (h4 : o + 4 ≤ total) (hk : k * chunkSize < total) :
    ((total - k * chunkSize) - min chunkSize (total - k * chunkSize) ≤ o ∧
      o + 4 ≤ total - k * chunkSize)
    ↔ (found total o = true ∧
        (total - k * chunkSize) - min chunkSize (total - k * chunkSize) ≤ o ∧
        o < total - k * chunkSize) := by
  simp only [found, chunkSize, decide_eq_true_eq]
  omega

theorem chunkOccs_eq (s : List Nat) (k : Nat) (he : 0 < s.length - k * chunkSize) :
    chunkOccs s (s.length - k * chunkSize) =
      (foundOccs s).filter (fun o =>
        decide ((s.length - k * chunkSize) - min chunkSize (s.length - k * chunkSize) ≤ o) &&
        decide (o < s.length - k * chunkSize)) := by
  apply sorted_eq_of_mem_iff
  · simp only [chunkOccs]
    exact List.Pairwise.map _ (fun a b hab => by omega) (sigOffsets_sorted _)
  · exact (foundOccs_sorted s).filter _
  · intro o
    rw [mem_chunkOccs, List.mem_filter]
    simp only [foundOccs, List.mem_filter, mem_sigOffsets, Bool.and_eq_true, decide_eq_true_eq]
    constructor
    · intro ⟨hsig, hlo, hhi⟩
      have h4 := sigAt_window_le hsig
      have := (found_window_iff s.length o k h4 (by omega)).mp ⟨hlo, hhi⟩
      exact ⟨⟨hsig, this.1⟩, this.2.1, this.2.2⟩
    · intro ⟨⟨hsig, hfound⟩, hlo, hhi⟩
      have h4 := sigAt_window_le hsig
      have := (found_window_iff s.length o k h4 (by omega)).mpr ⟨hfound, hlo, hhi⟩
      exact ⟨hsig, this.1, this.2⟩

theorem sorted_filter_split (l : List Nat) (e : Nat) (hs : l.Pairwise (· < ·)) :
    l = l.filter (fun o => decide (o < e)) ++ l.filter (fun o => decide (e ≤ o)) := by
  induction l with
  | nil => rfl
  | cons a t ih =>
    have hat : ∀ z ∈ t, a < z := (List.pairwise_cons.mp hs).1
    have ht := ih (List.pairwise_cons.mp hs).2
    by_cases ha : a < e
    · simp only [List.filter_cons]
      rw [if_pos (by simpa), if_neg (by simp; omega), List.cons_append]
      exact congrArg (a :: ·) ht
    · have htlt : t.filter (fun o => decide (o < e)) = [] := by
        rw [List.filter_eq_nil_iff]
        intro x hx
        simp only [decide_eq_true_eq, Nat.not_lt]
        have := hat x hx
        omega
      have htge : t.filter (fun o => decide (e ≤ o)) = t := by
        rw [List.filter_eq_self]
        intro x hx
        simp only [decide_eq_true_eq]
        have := hat x hx
        omega
      simp only [List.filter_cons]
      rw [if_neg (by simp; omega), if_pos (by simp; omega), htlt, htge, List.nil_append]

theorem lastTwo_append_of_two_le {A G : List Nat} (h2 : 2 ≤ G.length) :
    lastTwo (A ++ G) = lastTwo G := by
  have hne : G ≠ [] := by rintro rfl; simp at h2
  have hne2 : G.dropLast ≠ [] := by
    intro h
    have := congrArg List.length h
    simp only [List.length_dropLast, List.length_nil] at this
    omega
  simp only [lastTwo]
  rw [List.getLast?_append_of_ne_nil A hne, List.dropLast_append,
    if_neg (by simpa using hne), List.getLast?_append_of_ne_nil A hne2]

theorem two_le_of_second_some {G : List Nat} {x : Nat}
    (h : G.dropLast.getLast? = some x) : 2 ≤ G.length := by
  rcases G with _ | ⟨a, _ | ⟨b, t⟩⟩ <;> simp_all

theorem short_of_second_none {G : List Nat} (h : G.dropLast.getLast? = none) :
    G = [] ∨ ∃ x, G = [x] := by
  rcases G with _ | ⟨a, _ | ⟨b, t⟩⟩
  · exact Or.inl rfl
  · exact Or.inr ⟨a, rfl⟩
  · exfalso
    rw [List.dropLast_cons₂, List.getLast?_eq_none_iff] at h
    cases h

/-- Invariant of the backward chunk loop: if `(last, second)` already
summarise the visible occurrences at or beyond `searchEnd` (a canonical chunk
limit), the loop computes the last two visible occurrences of the stream. -/
theorem scanLoop_characterization (s : List Nat) :
    ∀ e, (∃ k, e = s.length - k * chunkSize) →
      ∀ last second,
        (last, second) = lastTwo ((foundOccs s).filter (fun o => decide (e ≤ o))) →
        scanLoop s e last second = lastTwo (foundOccs s) := by
  intro e
  induction e using Nat.strong_induction_on with
  | _ e ih =>
    intro ⟨k, hk⟩ last second hinv
    rw [scanLoop]
    by_cases hcond : second = none ∧ 0 < e
    · rw [dif_pos hcond]
      have hmin : 0 < min chunkSize e := by
        simp only [chunkSize]
        omega
      set cst := e - min chunkSize e with hcst
      have hGsplit : (foundOccs s).filter (fun o => decide (cst ≤ o)) =
          (foundOccs s).filter (fun o => decide (cst ≤ o) && decide (o < e)) ++
          (foundOccs s).filter (fun o => decide (e ≤ o)) := by
        have h1 := sorted_filter_split ((foundOccs s).filter (fun o => decide (cst ≤ o))) e
          ((foundOccs_sorted s).filter _)
        rw [List.filter_filter, List.filter_filter] at h1
        have h2 : (foundOccs s).filter (fun a => decide (e ≤ a) && decide (cst ≤ a)) =
            (foundOccs s).filter (fun o => decide (e ≤ o)) := by
          apply List.filter_congr
          intro x _
          by_cases hx : e ≤ x
          · simp [hx]
            omega
          · simp [hx]
        have h3 : (foundOccs s).filter (fun a => decide (a < e) && decide (cst ≤ a)) =
            (foundOccs s).filter (fun o => decide (cst ≤ o) && decide (o < e)) := by
          apply List.filter_congr
          intro x _
          by_cases hx : x < e <;> by_cases hy : cst ≤ x <;> simp [hx, hy]
        rw [h2, h3] at h1
        exact h1
      have hCocc : chunkOccs s e =
          (foundOccs s).filter (fun o => decide (cst ≤ o) && decide (o < e)) := by
        rw [hk] at hcond ⊢
        rw [hcst, hk]
        exact chunkOccs_eq s k hcond.2
      have hnext : scanStep last second (lastTwo (chunkOccs s e)).1 (lastTwo (chunkOccs s e)).2 =
          lastTwo ((foundOccs s).filter (fun o => decide (cst ≤ o))) := by
        set G := (foundOccs s).filter (fun o => decide (e ≤ o)) with hG
        set C := (foundOccs s).filter (fun o => decide (cst ≤ o) && decide (o < e)) with hC
        have hsec : G.dropLast.getLast? = none := by
          have h := congrArg Prod.snd hinv
          simp only [lastTwo] at h
          rw [← h, hcond.1]
        have hlastG : last = G.getLast? := by
          have h := congrArg Prod.fst hinv
          simp only [lastTwo] at h
          exact h
        rw [hCocc, hGsplit]
        rcases short_of_second_none hsec with hGnil | ⟨x, hGx⟩
        · have hlast : last = none := by rw [hlastG, hGnil]; rfl
          rw [hGnil, List.append_nil, scanStep, hlast]
          simp
        · have hlast : last = some x := by rw [hlastG, hGx]; rfl
          rw [hGx, scanStep, hlast, hcond.1]
          simp only [Option.isNone_some, Bool.false_eq_true, if_false, Option.isNone_none,
            Bool.true_and]
          rcases hCl : (lastTwo C).1 with _ | c
          · have hCnil : C = [] := by
              simp only [lastTwo] at hCl
              rwa [List.getLast?_eq_none_iff] at hCl
            simp only [Option.isSome_none, Bool.false_eq_true, if_false]
            rw [hCnil, List.nil_append]
            simp [lastTwo]
          · simp only [Option.isSome_some, if_true]
            simp only [lastTwo] at hCl ⊢
            rw [List.getLast?_append_of_ne_nil C (by simp), List.dropLast_append,
              if_neg (by simp), List.dropLast_single, List.append_nil, hCl]
            simp
      have hrec : e - min chunkSize e < e := by omega
      exact ih cst (by omega)
        ⟨k + 1, by simp only [hcst, hk, chunkSize] at *; omega⟩ _ _ hnext
    · rw [dif_neg hcond]
      push_neg at hcond
      by_cases hsec : second = none
      · have he0 : e = 0 := by
          have := hcond hsec
          omega
        subst he0
        have : (foundOccs s).filter (fun o => decide (0 ≤ o)) = foundOccs s := by
          rw [List.filter_eq_self]
          intro x _
          simp
        rw [this] at hinv
        exact hinv
      · rcases Option.ne_none_iff_exists.mp hsec with ⟨x, hx⟩
        have hsec2 : ((foundOccs s).filter (fun o => decide (e ≤ o))).dropLast.getLast? =
            some x := by
          have h := congrArg Prod.snd hinv
          simp only [lastTwo] at h
          rw [← h]
          exact hx.symm
        have h2 := two_le_of_second_some hsec2
        have hsplit := sorted_filter_split (foundOccs s) e (foundOccs_sorted s)
        have happ := lastTwo_append_of_two_le
          (A := (foundOccs s).filter (fun o => decide (o < e))) h2
        rw [← hsplit] at happ
        rw [happ]
        exact hinv

/-- The backward search finds exactly the last two chunk-visible signature
occurrences of the stream. -/
theorem scanEocds_eq (s : List Nat) : scanEocds s = lastTwo (foundOccs s) := by
  rw [scanEocds]
  apply scanLoop_characterization s s.length ⟨0, by omega⟩
  have : (foundOccs s).filter (fun o => decide (s.length ≤ o)) = [] := by
    rw [List.filter_eq_nil_iff]
    intro x hx
    have hmem : x ∈ sigOffsets s := List.mem_of_mem_filter hx
    have := List.mem_range.mp (List.mem_filter.mp hmem).1
    simp only [decide_eq_true_eq]
    omega
  rw [this]
  rfl

/-! ## Archive decoding (spec-modelled `zip` collaborator, reading side)

Modelled from the spec: `zip::ZipArchive::new` locates the archive's EOCD
record by scanning backward from the end of its (bounded) stream — i.e. it
uses the last signature occurrence — checks that the comment length fits the
stream end, and reads the central directory (here: the entry table) directly
before the record.  Data prepended before the table is ignored, which models
the `zip` crate's tolerance of leading garbage via offset correction. -/

/-- Read a 2-byte little-endian number at offset `i` (`read_exact` of 2 bytes
followed by `u16::from_le_bytes`); `none` models the `UnexpectedEof` I/O error. -/
def readU16 (s : List Nat) (i : Nat) : Option Nat :=
  match s[i]?, s[i + 1]? with
  | some a, some b => some (a + 256 * b)
  | _, _ => none

/-- Decode an archive from a byte region. -/
def zipDecode (region : List Nat) : Option (List (List Nat × List Nat)) :=
  match (sigOffsets region).getLast? with
  | none => none
  | some o =>
    match readU16 region (o + 20) with
    | none => none
    | some c =>
      if region.length = o + 22 + c then
        if h : val16 ((region.drop (o + 4)).take 16) ≤ o then
          decodeEntries ((region.take o).drop (o - val16 ((region.drop (o + 4)).take 16))).length
            ((region.take o).drop (o - val16 ((region.drop (o + 4)).take 16)))
        else none
      else none

theorem drop_append_add (u v : List Nat) (n : Nat) :
    (u ++ v).drop (u.length + n) = v.drop n := by
  rw [List.drop_append]

/-- Decoding inverts encoding, through an arbitrary prefix `J` of junk bytes
(the table length must fit the 16-digit field, i.e. the u64 size limit). -/
theorem zipDecode_append (J : List Nat) (es : List (List Nat × List Nat))
    (hT : (tableOf es).length < 16 ^ 16) :
    zipDecode (J ++ zipEncode es) = some es := by
  have hlast := sig_last_append J es
  have hcomment := comment_bytes_append J es
  have hlen : (J ++ zipEncode es).length = J.length + (tableOf es).length + 22 := by
    rw [List.length_append, length_zipEncode]
    omega
  rw [zipDecode, hlast]
  have hu16 : readU16 (J ++ zipEncode es) (J.length + (tableOf es).length + 20) = some 0 := by
    rw [readU16, hcomment.1]
    rw [show J.length + (tableOf es).length + 20 + 1 = J.length + (tableOf es).length + 21 by omega,
      hcomment.2]
  simp only []
  rw [hu16]
  simp only []
  rw [if_pos (by omega)]
  have hfields : ((J ++ zipEncode es).drop (J.length + (tableOf es).length + 4)).take 16 =
      fixDigits 16 (tableOf es).length := by
    rw [show J.length + (tableOf es).length + 4 = J.length + ((tableOf es).length + 4) by omega,
      drop_append_add, zipEncode]
    rw [show (tableOf es).length + 4 = (tableOf es).length + 4 + 0 by omega]
    rw [show (tableOf es ++ eocdSig ++ fixDigits 16 (tableOf es).length ++ [0, 0]) =
      ((tableOf es ++ eocdSig) ++ (fixDigits 16 (tableOf es).length ++ [0, 0])) by
        simp [List.append_assoc]]
    rw [show (tableOf es).length + 4 + 0 = (tableOf es ++ eocdSig).length + 0 by
      simp [eocdSig]]
    rw [drop_append_add, List.drop_zero]
    exact List.take_left' (length_fixDigits 16 (tableOf es).length)
  rw [hfields, val16_fixDigits, Nat.mod_eq_of_lt hT]
  rw [dif_pos (by omega)]
  have htable : ((J ++ zipEncode es).take (J.length + (tableOf es).length)).drop
      (J.length + (tableOf es).length - (tableOf es).length) = tableOf es := by
    rw [List.take_append, zipEncode]
    rw [show (tableOf es ++ eocdSig ++ fixDigits 16 (tableOf es).length ++ [0, 0]) =
      (tableOf es ++ (eocdSig ++ (fixDigits 16 (tableOf es).length ++ [0, 0]))) by
        simp [List.append_assoc]]
    rw [show (tableOf es).length = (tableOf es).length + 0 by omega, List.take_append,
      List.take_zero, List.append_nil]
    rw [show J.length + ((tableOf es).length + 0) - ((tableOf es).length + 0) = J.length + 0 by
      omega]
    rw [drop_append_add, List.drop_zero]
  rw [htable]
  exact decodeEntries_tableOf es _ (Nat.le_refl _)

/-! ## Waypoint data (spec-modelled `seeyou_cup` collaborator)

Modelled from the spec, section 6: "a waypoint-file library providing
`parse(stream[, encoding]) -> (model, diagnostics)` and
`serialize(model, sink)`", with `parse(serialize(M)) = (M, no diagnostics)`.
Waypoints and tasks are opaque records (byte lists). -/

/-- The waypoint-data model (`seeyou_cup::CupFile`). -/
structure CupFile where
  waypoints : List (List Nat)
  tasks : List (List Nat)
deriving DecidableEq

/-- Length-prefixed encoding of a list of records. -/
def encItems (l : List (List Nat)) : List Nat :=
  natEnc l.length ++ (l.map (fun x => natEnc x.length ++ encB x)).flatten

/-- Decode one record. -/
def decodeItem (l : List Nat) : Option (List Nat × List Nat) :=
  match decodeNum l with
  | none => none
  | some (n, r) => decodeBytes n r

/-- Decode `k` records. -/
def decodeItemsAux : Nat → List Nat → Option (List (List Nat) × List Nat)
  | 0, l => some ([], l)
  | k + 1, l =>
    match decodeItem l with
    | none => none
    | some (x, r) =>
      match decodeItemsAux k r with
      | none => none
      | some (xs, r2) => some (x :: xs, r2)

/-- Decode a length-prefixed list of records. -/
def decodeItems (l : List Nat) : Option (List (List Nat) × List Nat) :=
  match decodeNum l with
  | none => none
  | some (n, r) => decodeItemsAux n r

theorem decodeItem_enc (x : List Nat) (rest : List Nat) :
    decodeItem (natEnc x.length ++ encB x ++ rest) = some (x, rest) := by
  rw [decodeItem, List.append_assoc, decodeNum_natEnc]
  exact decodeBytes_encB x rest

theorem decodeItemsAux_enc (l : List (List Nat)) (rest : List Nat) :
    decodeItemsAux l.length ((l.map (fun x => natEnc x.length ++ encB x)).flatten ++ rest) =
      some (l, rest) := by
  induction l generalizing rest with
  | nil => simp [decodeItemsAux]
  | cons x t ih =>
    simp only [List.map_cons, List.flatten_cons, List.length_cons, decodeItemsAux,
      List.append_assoc]
    rw [← List.append_assoc (natEnc x.length) (encB x), decodeItem_enc]
    simp only []
    rw [ih rest]

theorem decodeItems_encItems (l : List (List Nat)) (rest : List Nat) :
    decodeItems (encItems l ++ rest) = some (l, rest) := by
  rw [decodeItems, encItems, List.append_assoc, decodeNum_natEnc]
  simp only []
  exact decodeItemsAux_enc l rest

/-- `CupFile::to_writer` (spec-modelled serialization of the waypoint data). -/
def cupSerialize (f : CupFile) : List Nat :=
  encItems f.waypoints ++ encItems f.tasks

/-- `CupFile::from_reader` (spec-modelled parse; the modelled parse of a
well-formed serialization yields no diagnostics, and a diagnostic is a
message together with an optional line number). -/
def cupFromReader (l : List Nat) : Option (CupFile × List (List Nat × Option Nat)) :=
  match decodeItems l with
  | none => none
  | some (ws, r) =>
    match decodeItems r with
    | none => none
    | some (ts, r2) => if r2 = [] then some (⟨ws, ts⟩, []) else none

theorem cupFromReader_cupSerialize (f : CupFile) :
    cupFromReader (cupSerialize f) = some (f, []) := by
  rw [cupFromReader, cupSerialize]
  rw [decodeItems_encItems]
  simp only []
  rw [show encItems f.tasks = encItems f.tasks ++ [] by simp, decodeItems_encItems]
  simp only []
  rfl

/-! ## Warnings and errors (src/error.rs) -/

/-- Non-fatal warnings (`Warning` in src/error.rs). -/
inductive Warning
  | noPicturesArchive
  | cupParseIssue (message : List Nat) (line : Option Nat)
deriving DecidableEq

/-- Errors of the `zip` collaborator that the crate surfaces
(`zip::result::ZipError`); `fileNotFound` is what the spec's taxonomy calls
`PictureNotFound` / entry-not-found. -/
inductive ZipError
  | fileNotFound
  | invalidArchive
deriving DecidableEq

/-- `Error` in src/error.rs.  `io` models an underlying I/O failure
(`Error::Io`), such as the `UnexpectedEof` of a failed `read_exact`. -/
inductive Error
  | io
  | zip (e : ZipError)
  | cup
  | invalidCupx
  | invalidFilename (n : List Nat)
deriving DecidableEq

/-! ## The container reader (`CupxFile`, src/reader.rs) -/

/-- A parsed CUPX file: the waypoint data and, when a boundary was found,
the entries of the pictures archive. -/
structure CupxFile where
  cup_file : CupFile
  pics_archive : Option (List (List Nat × List Nat))
deriving DecidableEq

/-- The boundary-locating phase of `CupxFile::from_reader_inner`
(src/reader.rs lines 117-176): run the backward scan, then
- with a second-to-last occurrence `o`, read the 2-byte little-endian
  comment length at `o + 20` (a failing `read_exact` is an I/O error) and
  return `Some(o + EOCD_MIN_SIZE + comment_len)` with no warnings;
- with only a last occurrence, return `None` plus the
  `NoPicturesArchive` warning;
- with no occurrence at all, fail with `Error::InvalidCupx`. -/
def findBoundary (s : List Nat) : Except Error (Option Nat × List Warning) :=
  match scanEocds s with
  | (last, some firstEocdOffset) =>
    match readU16 s (firstEocdOffset + 20) with
    | none => .error .io
    | some commentLen => .ok (some (firstEocdOffset + 22 + commentLen), [])
  | (some _, none) => .ok (none, [.noPicturesArchive])
  | (none, none) => .error .invalidCupx

/-- `by_name` of the archive collaborator: first entry with the exact name. -/
def lookupName (es : List (List Nat × List Nat)) (nm : List Nat) : Option (List Nat) :=
  (es.find? (fun e => e.1 == nm)).map (fun e => e.2)

/-- The bytes of `"POINTS.CUP"`. -/
def pointsCup : List Nat := [80, 79, 73, 78, 84, 83, 46, 67, 85, 80]

/-- The archive-reading phase of `CupxFile::from_reader_inner`
(src/reader.rs lines 178-212): open the points region as an archive, extract
`POINTS.CUP`, parse it (collecting its diagnostics as warnings), then open
the pics region as an archive when a boundary was found. -/
def readArchives (points : List Nat) (pics : Option (List Nat)) (warnings : List Warning) :
    Except Error (CupxFile × List Warning) :=
  match zipDecode points with
  | none => .error (.zip .invalidArchive)
  | some pointsEntries =>
    match lookupName pointsEntries pointsCup with
    | none => .error (.zip .fileNotFound)
    | some cupBytes =>
      match cupFromReader cupBytes with
      | none => .error .cup
      | some (cf, issues) =>
        match pics with
        | some picsRegion =>
          match zipDecode picsRegion with
          | none => .error (.zip .invalidArchive)
          | some picsEntries =>
            .ok (⟨cf, some picsEntries⟩,
              warnings ++ issues.map (fun i => Warning.cupParseIssue i.1 i.2))
        | none =>
          .ok (⟨cf, none⟩, warnings ++ issues.map (fun i => Warning.cupParseIssue i.1 i.2))

/-- `CupxFile::from_reader_inner` (src/reader.rs): locate the boundary, read
the points archive from `[boundary, end)` (or the whole stream when there is
no boundary) and the pictures archive from `[0, boundary)`. -/
def fromReaderInner (s : List Nat) : Except Error (CupxFile × List Warning) :=
  match findBoundary s with
  | .error e => .error e
  | .ok (picsBoundary, warnings) =>
    readArchives (s.drop (picsBoundary.getD 0)) (picsBoundary.map (fun b => s.take b)) warnings

/-- `CupxFile::waypoints`. -/
def CupxFile.waypoints (f : CupxFile) : List (List Nat) := f.cup_file.waypoints

/-- `CupxFile::tasks`. -/
def CupxFile.tasks (f : CupxFile) : List (List Nat) := f.cup_file.tasks

/-- ASCII lowercasing of one byte; models `to_lowercase` /
`eq_ignore_ascii_case` (the source only ever compares ASCII `pics/` prefixes
and file names; Unicode lowercasing is restricted to ASCII in this model). -/
def asciiLower (b : Nat) : Nat := if 65 ≤ b ∧ b ≤ 90 then b + 32 else b

/-- Bytewise lowercase of a name. -/
def lowerStr (s : List Nat) : List Nat := s.map asciiLower

/-- `str::is_char_boundary(i)`: `i` is the length, or the byte at `i` is not
a UTF-8 continuation byte. -/
def isCharBoundary (s : List Nat) (i : Nat) : Bool :=
  match s[i]? with
  | none => decide (i = s.length)
  | some b => !(decide (128 ≤ b) && decide (b < 192))

/-- The bytes of `"pics/"`. -/
def picsDir : List Nat := [112, 105, 99, 115, 47]

/-- The per-name test of `CupxFile::read_picture` (src/reader.rs lines
264-271): length at least 5, a char boundary at 5, the first five bytes
equal to `pics/` ignoring ASCII case, and the rest lowercasing to the
target. -/
def matchesPic (target : List Nat) (nm : List Nat) : Bool :=
  decide (5 ≤ nm.length) && isCharBoundary nm 5 &&
    (lowerStr (nm.take 5) == lowerStr picsDir) && (lowerStr (nm.drop 5) == target)

/-- `CupxFile::read_picture` (src/reader.rs lines 256-277): without a
pictures archive, or without a case-insensitively matching `pics/` entry,
fail with the `zip` file-not-found error (the spec's `PictureNotFound`);
otherwise return the matched entry's decompressed bytes. -/
def CupxFile.read_picture (f : CupxFile) (filename : List Nat) :
    Except Error (List Nat) :=
  match f.pics_archive with
  | none => .error (.zip .fileNotFound)
  | some entries =>
    match (entries.map (fun e => e.1)).find? (fun nm => matchesPic (lowerStr filename) nm) with
    | none => .error (.zip .fileNotFound)
    | some actualPath =>
      match lookupName entries actualPath with
      | none => .error (.zip .fileNotFound)
      | some d => .ok d

/-- `CupxFile::picture_names` (src/reader.rs lines 296-312): the entry names
under the case-insensitive `pics/` prefix, with the prefix stripped. -/
def CupxFile.picture_names (f : CupxFile) : List (List Nat) :=
  match f.pics_archive with
  | none => []
  | some entries =>
    (entries.map (fun e => e.1)).filterMap (fun nm =>
      if 5 ≤ nm.length ∧ isCharBoundary nm 5 = true ∧ lowerStr (nm.take 5) = lowerStr picsDir
      then some (nm.drop 5) else none)

/-! ## The container writer (`CupxWriter`, src/writer.rs) -/

/-- `PictureSource`: bytes in memory or a deferred file path. -/
inductive PictureSource
  | bytes (data : List Nat)
  | path (p : List Nat)
deriving DecidableEq

/-- `CupxWriter`: the waypoint data plus the name → source picture map
(the map is modelled as its list of entries in iteration order). -/
structure CupxWriter where
  cup_file : CupFile
  pictures : List (List Nat × PictureSource)
deriving DecidableEq

/-- The filename validation of `CupxWriter::write` (src/writer.rs lines
119-123): empty, or containing `/` (47) or `\` (92). -/
def invalidName (n : List Nat) : Bool :=
  n.isEmpty || n.contains 47 || n.contains 92

/-- Resolve one picture source: bytes directly, or the file system content
for a path (`File::open` + copy); `none` is a file-open I/O failure. -/
def resolveSource (fs : List Nat → Option (List Nat)) : PictureSource → Option (List Nat)
  | .bytes d => some d
  | .path p => fs p

/-- Writing the entries of the pictures archive (src/writer.rs lines
130-143): each entry goes under `pics/<name>`; on a path source whose file
cannot be opened, the error carries the bytes written before the failure
(the entry header `start_file` already wrote). -/
def buildPics (fs : List Nat → Option (List Nat)) :
    List (List Nat × PictureSource) → Except (List Nat) (List (List Nat × List Nat))
  | [] => .ok []
  | (n, src) :: rest =>
    match resolveSource fs src with
    | none => .error (natEnc (picsDir ++ n).length ++ encB (picsDir ++ n))
    | some d =>
      match buildPics fs rest with
      | .error t => .error (encEntry (picsDir ++ n, d) ++ t)
      | .ok es => .ok ((picsDir ++ n, d) :: es)

/-- `CupxWriter::write` (src/writer.rs lines 118-155): validate every
filename up front, then write the pictures archive, then build the points
archive (single entry `POINTS.CUP`) in a buffer and append it.  The result
is the pair of the bytes that reached the output and the error, if any. -/
def write (fs : List Nat → Option (List Nat)) (w : CupxWriter) :
    List Nat × Option Error :=
  match w.pictures.find? (fun p => invalidName p.1) with
  | some p => ([], some (.invalidFilename p.1))
  | none =>
    match buildPics fs w.pictures with
    | .error t => (t, some .io)
    | .ok entries =>
      (zipEncode entries ++ zipEncode [(pointsCup, cupSerialize w.cup_file)], none)

/-! ## The bounded substream (`LimitedReader`, src/limited_reader.rs)

The underlying `Read + Seek` stream is modelled as a byte list plus a
cursor position; positions are naturals (the source uses `u64`). -/

/-- One `Bound<u64>` of a `RangeBounds<u64>`. -/
inductive Bnd
  | included (n : Nat)
  | excluded (n : Nat)
  | unbounded
deriving DecidableEq

/-- A `RangeBounds<u64>` value as its two bounds. -/
structure RangeB where
  lo : Bnd
  hi : Bnd
deriving DecidableEq

/-- The wrapped `Read + Seek` stream (e.g. a `Cursor` over bytes). -/
structure ByteStream where
  data : List Nat
  pos : Nat
deriving DecidableEq

/-- The start of a range (`range.start_bound()` match in `new` and `seek`). -/
def startOf : Bnd → Nat
  | .included n => n
  | .excluded n => n + 1
  | .unbounded => 0

/-- The exclusive end of a range (`range.end_bound()` match in `read` and
`seek`); `none` for an unbounded range. -/
def endOf : Bnd → Option Nat
  | .excluded n => some n
  | .included n => some (n + 1)
  | .unbounded => none

/-- `LimitedReader` state: the wrapped stream, the range, and the position. -/
structure LimitedReader where
  inner : ByteStream
  range : RangeB
  pos : Nat
deriving DecidableEq

/-- `LimitedReader::new`: seek the inner stream to the range start and start
there (the inner seek of the model cannot fail). -/
def LimitedReader.new (inner : ByteStream) (range : RangeB) : LimitedReader :=
  { inner := { inner with pos := startOf range.lo }, range := range, pos := startOf range.lo }

/-- `LimitedReader::into_inner`. -/
def LimitedReader.into_inner (r : LimitedReader) : ByteStream := r.inner

/-- A read of at most `n` bytes from the inner stream at its cursor. -/
def ByteStream.read (b : ByteStream) (n : Nat) : List Nat × ByteStream :=
  (( b.data.drop b.pos).take n, { b with pos := b.pos + ((b.data.drop b.pos).take n).length })

/-- `LimitedReader::read` (src/limited_reader.rs lines 32-53): clamp the
requested length to `end - pos` for a bounded end (returning no bytes at or
past the end), read from the inner stream, and advance by the bytes read. -/
def LimitedReader.read (r : LimitedReader) (bufLen : Nat) : List Nat × LimitedReader :=
  match endOf r.range.hi with
  | some e =>
    if e ≤ r.pos then ([], r)
    else
      let p := r.inner.read (min bufLen (e - r.pos))
      (p.1, { r with inner := p.2, pos := r.pos + p.1.length })
  | none =>
    let p := r.inner.read bufLen
    (p.1, { r with inner := p.2, pos := r.pos + p.1.length })

/-- `std::io::SeekFrom`. -/
inductive SeekFrom
  | start (offset : Nat)
  | current (offset : Int)
  | fromEnd (offset : Int)
deriving DecidableEq

/-- Rust's `u64::clamp(lo, hi)` (defined for `lo ≤ hi`). -/
def clampR (x lo hi : Nat) : Nat := min (max x lo) hi

/-- `LimitedReader::seek` (src/limited_reader.rs lines 56-98): compute the
absolute target (saturating at 0 on negative relative offsets), resolve an
unbounded end against the physical end of the inner stream, clamp into the
range, seek the inner stream there, and return the position relative to the
range start. -/
def LimitedReader.seek (r : LimitedReader) (from_ : SeekFrom) : Nat × LimitedReader :=
  let start := startOf r.range.lo
  let newPos : Nat :=
    match from_ with
    | .start offset => start + offset
    | .current offset =>
      if 0 ≤ offset then r.pos + offset.toNat else r.pos - (-offset).toNat
    | .fromEnd offset =>
      let e : Nat :=
        match endOf r.range.hi with
        | some e => e
        | none => r.inner.data.length
      if 0 ≤ offset then e + offset.toNat else e - (-offset).toNat
  let clamped : Nat :=
    match endOf r.range.hi with
    | some e => clampR newPos start e
    | none => max newPos start
  (clamped - start, { r with inner := { r.inner with pos := clamped }, pos := clamped })

/-- A well-formed range: the normalized start does not exceed the normalized
exclusive end (always true for the `0..b` and `s..` ranges the crate builds;
`u64::clamp` would panic otherwise). -/
def wfRange (range : RangeB) : Bool :=
  match endOf range.hi with
  | some e => decide (startOf range.lo ≤ e)
  | none => true

/-- The position invariant of a bounded substream: the position is at or
after the range start, at or before a bounded exclusive end, and the inner
stream's cursor agrees with it. -/
def PosInv (r : LimitedReader) : Prop :=
  startOf r.range.lo ≤ r.pos ∧
  (∀ e, endOf r.range.hi = some e → r.pos ≤ e) ∧
  r.inner.pos = r.pos

/-- The clamping behaviour of `LimitedReader::seek`: the new position is at
or after the range start, and at or before a bounded exclusive end. -/
theorem seek_pos_bounds (r : LimitedReader) (sf : SeekFrom)
    (hwf : wfRange r.range = true) :
    startOf r.range.lo ≤ (r.seek sf).2.pos ∧
    (∀ e, endOf r.range.hi = some e → (r.seek sf).2.pos ≤ e) := by
  rcases he : endOf r.range.hi with _ | e
  · simp only [LimitedReader.seek, he]
    constructor
    · exact le_max_right _ _
    · intro e' he'
      cases he'
  · have hse : startOf r.range.lo ≤ e := by
      unfold wfRange at hwf
      rw [he] at hwf
      simpa using hwf
    simp only [LimitedReader.seek, he, clampR]
    constructor
    · omega
    · intro e' he'
      cases he'
      omega

/-- C9: for every bounded substream over a well-formed range and every seek
target (relative to start, to the current position, or to the end), `seek`
succeeds (the model is total; the source returns `Ok` on every path) and the
resulting absolute position is clamped into `[start, end]` for a bounded end
and to at least `start` for an unbounded end; the returned value is the
clamped position relative to the range start. -/
theorem c9_seek_totality_and_clamping (r : LimitedReader) (sf : SeekFrom)
    (hwf : wfRange r.range = true) :
    startOf r.range.lo ≤ (r.seek sf).2.pos ∧
    (∀ e, endOf r.range.hi = some e → (r.seek sf).2.pos ≤ e) ∧
    (r.seek sf).1 = (r.seek sf).2.pos - startOf r.range.lo := by
  refine ⟨(seek_pos_bounds r sf hwf).1, (seek_pos_bounds r sf hwf).2, rfl⟩

/-- C9 witness. -/
theorem c9_seek_totality_and_clamping_witness :
    wfRange (RangeB.mk (.included 1) (.excluded 3)) = true ∧
    startOf (RangeB.mk (.included 1) (.excluded 3)).lo ≤
      ((LimitedReader.new ⟨[9, 9, 9, 9, 9], 0⟩
        (RangeB.mk (.included 1) (.excluded 3))).seek (.fromEnd 5)).2.pos ∧
    (∀ e, endOf (RangeB.mk (.included 1) (.excluded 3)).hi = some e →
      ((LimitedReader.new ⟨[9, 9, 9, 9, 9], 0⟩
        (RangeB.mk (.included 1) (.excluded 3))).seek (.fromEnd 5)).2.pos ≤ e) := by
  refine ⟨by decide, ?_, ?_⟩
  · exact (c9_seek_totality_and_clamping
      (LimitedReader.new ⟨[9, 9, 9, 9, 9], 0⟩ (RangeB.mk (.included 1) (.excluded 3)))
      (.fromEnd 5) (by decide)).1
  · exact (c9_seek_totality_and_clamping
      (LimitedReader.new ⟨[9, 9, 9, 9, 9], 0⟩ (RangeB.mk (.included 1) (.excluded 3)))
      (.fromEnd 5) (by decide)).2.1

theorem new_posInv (inner : ByteStream) (range : RangeB) (h : wfRange range = true) :
    PosInv (LimitedReader.new inner range) := by
  refine ⟨Nat.le_refl _, ?_, rfl⟩
  intro e he
  unfold wfRange at h
  rw [show endOf range.hi = some e from he] at h
  simpa using h

/-- C10: the bounded-position invariant.  A freshly built substream over a
well-formed range satisfies it; `read` preserves it, returns no bytes at or
past a bounded end, clamps the requested length to `end - pos` (so the bytes
read are exactly a slice ending at or before `end`), and `seek` preserves
it. -/
theorem c10_position_invariant (inner : ByteStream) (range : RangeB)
    (r : LimitedReader) (n : Nat) (sf : SeekFrom)
    (hwfnew : wfRange range = true) (hwf : wfRange r.range = true)
    (hr : PosInv r) :
    PosInv (LimitedReader.new inner range) ∧
    PosInv (r.read n).2 ∧
    (∀ e, endOf r.range.hi = some e →
      (e ≤ r.pos → (r.read n).1 = []) ∧
      (r.read n).1 = (r.inner.data.drop r.pos).take (min n (e - r.pos)) ∧
      r.pos + (r.read n).1.length ≤ e) ∧
    PosInv (r.seek sf).2 := by
  obtain ⟨hlo, hhi, hsync⟩ := hr
  refine ⟨new_posInv inner range hwfnew, ?_, ?_, ?_⟩
  · rcases he : endOf r.range.hi with _ | e
    · have hread : (r.read n).2 = { r with
          inner := { r.inner with
            pos := r.inner.pos + ((r.inner.data.drop r.inner.pos).take n).length },
          pos := r.pos + ((r.inner.data.drop r.inner.pos).take n).length } := by
        simp only [LimitedReader.read, he, ByteStream.read]
      rw [hread]
      refine ⟨by dsimp only []; omega, ?_, by dsimp only []; omega⟩
      intro e' he'
      have hx : endOf r.range.hi = some e' := he'
      rw [he] at hx
      cases hx
    · by_cases hend : e ≤ r.pos
      · have hread : (r.read n).2 = r := by
          simp only [LimitedReader.read, he, ByteStream.read, if_pos hend]
        rw [hread]
        exact ⟨hlo, hhi, hsync⟩
      · have hread : (r.read n).2 = { r with
            inner := { r.inner with
              pos := r.inner.pos +
                ((r.inner.data.drop r.inner.pos).take (min n (e - r.pos))).length },
            pos := r.pos +
              ((r.inner.data.drop r.inner.pos).take (min n (e - r.pos))).length } := by
          simp only [LimitedReader.read, he, ByteStream.read, if_neg hend]
        have hlen : ((r.inner.data.drop r.inner.pos).take (min n (e - r.pos))).length ≤
            min n (e - r.pos) := by
          simp [List.length_take]
        rw [hread]
        refine ⟨by dsimp only []; omega, ?_, by dsimp only []; omega⟩
        intro e' he'
        have hx : endOf r.range.hi = some e' := he'
        rw [he] at hx
        cases hx
        dsimp only []
        omega
  · intro e he
    simp only [LimitedReader.read, he, ByteStream.read]
    refine ⟨fun h => by rw [if_pos h], ?_, ?_⟩
    · by_cases hend : e ≤ r.pos
      · rw [if_pos hend]
        have : min n (e - r.pos) = 0 := by omega
        simp [this]
      · rw [if_neg hend, hsync]
    · by_cases hend : e ≤ r.pos
      · rw [if_pos hend]
        have hp := hhi e he
        simp
        omega
      · rw [if_neg hend]
        have hlen : ((r.inner.data.drop r.inner.pos).take (min n (e - r.pos))).length ≤
            min n (e - r.pos) := by
          simp [List.length_take]
        simp only [List.length_take] at *
        omega
  · refine ⟨(seek_pos_bounds r sf hwf).1, (seek_pos_bounds r sf hwf).2, rfl⟩

/-- C10 witness. -/
theorem c10_position_invariant_witness :
    wfRange (RangeB.mk (.included 0) .unbounded) = true ∧
    wfRange (RangeB.mk (.included 2) (.excluded 4)) = true ∧
    PosInv (LimitedReader.new ⟨[7, 7, 7, 7, 7], 1⟩ (RangeB.mk (.included 2) (.excluded 4))) ∧
    PosInv ((LimitedReader.new ⟨[7, 7, 7, 7, 7], 1⟩
      (RangeB.mk (.included 2) (.excluded 4))).read 10).2 := by
  have hbase : PosInv (LimitedReader.new ⟨[7, 7, 7, 7, 7], 1⟩
      (RangeB.mk (.included 2) (.excluded 4))) :=
    new_posInv ⟨[7, 7, 7, 7, 7], 1⟩ (RangeB.mk (.included 2) (.excluded 4)) (by decide)
  refine ⟨by decide, by decide, hbase, ?_⟩
  exact (c10_position_invariant ⟨[], 0⟩ (RangeB.mk (.included 0) .unbounded)
    (LimitedReader.new ⟨[7, 7, 7, 7, 7], 1⟩ (RangeB.mk (.included 2) (.excluded 4)))
    10 (.start 0) (by decide) (by decide) hbase).2.1

/-- C7: `read_picture` fails with the entry-not-found error (the spec's
`PictureNotFound`) exactly when the container has no pictures archive or no
entry under the `pics/` prefix whose stripped name matches the requested
name case-insensitively; in all other cases it returns the matched entry's
decompressed bytes. -/
theorem c7_read_picture_error_class (f : CupxFile) (filename : List Nat) :
    (f.read_picture filename = .error (.zip .fileNotFound) ↔
      (f.pics_archive = none ∨
        ∃ entries, f.pics_archive = some entries ∧
          ∀ e ∈ entries, matchesPic (lowerStr filename) e.1 = false)) ∧
    ((∃ entries, f.pics_archive = some entries ∧
        ∃ e ∈ entries, matchesPic (lowerStr filename) e.1 = true) →
      ∃ entries e, f.pics_archive = some entries ∧ e ∈ entries ∧
        matchesPic (lowerStr filename) e.1 = true ∧
        f.read_picture filename = .ok e.2) := by
  rcases hp : f.pics_archive with _ | entries
  · constructor
    · simp [CupxFile.read_picture, hp]
    · intro ⟨entries, he, _⟩
      cases he
  · have hmain : ∀ actualPath,
        ((entries.map (fun e => e.1)).find? (fun nm => matchesPic (lowerStr filename) nm) =
          some actualPath) →
        ∃ e, e ∈ entries ∧ matchesPic (lowerStr filename) e.1 = true ∧
          f.read_picture filename = .ok e.2 := by
      intro actualPath hfind
      have hmatch := List.find?_some hfind
      have hmem := List.mem_of_find?_eq_some hfind
      rcases List.mem_map.mp hmem with ⟨e0, he0, he0n⟩
      have hl : ∃ e ∈ entries, (e.1 == actualPath) = true :=
        ⟨e0, he0, by simp [he0n]⟩
      rcases Option.isSome_iff_exists.mp (List.find?_isSome.mpr hl) with ⟨efound, hefound⟩
      have hebeq := List.find?_some hefound
      have hename : efound.1 = actualPath := by simpa using hebeq
      refine ⟨efound, List.mem_of_find?_eq_some hefound, by rw [hename]; exact hmatch, ?_⟩
      simp only [CupxFile.read_picture, hp, hfind, lookupName, hefound, Option.map]
    constructor
    · constructor
      · intro herr
        rcases hfind : (entries.map (fun e => e.1)).find?
            (fun nm => matchesPic (lowerStr filename) nm) with _ | actualPath
        · right
          refine ⟨entries, rfl, ?_⟩
          intro e he
          have := List.find?_eq_none.mp hfind e.1 (List.mem_map.mpr ⟨e, he, rfl⟩)
          simpa using this
        · rcases hmain actualPath hfind with ⟨e, _, _, hok⟩
          rw [hok] at herr
          cases herr
      · intro h
        rcases h with h | ⟨entries', he', hall⟩
        · cases h
        · cases he'
          have hfind : (entries.map (fun e => e.1)).find?
              (fun nm => matchesPic (lowerStr filename) nm) = none := by
            rw [List.find?_eq_none]
            intro nm hnm
            rcases List.mem_map.mp hnm with ⟨e, he, rfl⟩
            simp [hall e he]
          simp [CupxFile.read_picture, hp, hfind]
    · intro ⟨entries', he', e, hmem, hmatch⟩
      cases he'
      have hfind : ((entries.map (fun e => e.1)).find?
          (fun nm => matchesPic (lowerStr filename) nm)).isSome :=
        List.find?_isSome.mpr ⟨e.1, List.mem_map.mpr ⟨e, hmem, rfl⟩, hmatch⟩
      rcases Option.isSome_iff_exists.mp hfind with ⟨actualPath, hfind'⟩
      rcases hmain actualPath hfind' with ⟨e', hmem', hmatch', hok⟩
      exact ⟨entries, e', rfl, hmem', hmatch', hok⟩

/-- C7 witness: a container with one picture entry, looked up with a
different ASCII case. -/
theorem c7_read_picture_error_class_witness :
    (∃ entries, (CupxFile.mk ⟨[], []⟩
        (some [([112, 105, 99, 115, 47, 65], [3, 1, 4])])).pics_archive = some entries ∧
      ∃ e ∈ entries, matchesPic (lowerStr [97]) e.1 = true) ∧
    (∃ entries e, (CupxFile.mk ⟨[], []⟩
        (some [([112, 105, 99, 115, 47, 65], [3, 1, 4])])).pics_archive = some entries ∧
      e ∈ entries ∧ matchesPic (lowerStr [97]) e.1 = true ∧
      (CupxFile.mk ⟨[], []⟩
        (some [([112, 105, 99, 115, 47, 65], [3, 1, 4])])).read_picture [97] = .ok e.2) := by
  refine ⟨by decide, ?_⟩
  exact (c7_read_picture_error_class
    (CupxFile.mk ⟨[], []⟩ (some [([112, 105, 99, 115, 47, 65], [3, 1, 4])])) [97]).2
    (by decide)

/-- C8: when at least one picture name is empty or contains a path
separator, `write` fails with `InvalidFilename` carrying such a name, and
the output receives zero bytes; in particular the names `""`, `"a/b.jpg"`
and `"a\x5cb.jpg"` each fail this way.  (The validation loop runs before any
output is produced, src/writer.rs lines 119-123.) -/
theorem c8_invalid_filename_atomicity (fs : List Nat → Option (List Nat)) (w : CupxWriter) :
    ((∃ p ∈ w.pictures, invalidName p.1 = true) →
      ∃ n, invalidName n = true ∧ (∃ src, (n, src) ∈ w.pictures) ∧
        write fs w = ([], some (.invalidFilename n))) ∧
    write fs (CupxWriter.mk ⟨[], []⟩ [([], .bytes [1])]) =
      ([], some (.invalidFilename [])) ∧
    write fs (CupxWriter.mk ⟨[], []⟩ [([97, 47, 98, 46, 106, 112, 103], .bytes [1])]) =
      ([], some (.invalidFilename [97, 47, 98, 46, 106, 112, 103])) ∧
    write fs (CupxWriter.mk ⟨[], []⟩ [([97, 92, 98, 46, 106, 112, 103], .bytes [1])]) =
      ([], some (.invalidFilename [97, 92, 98, 46, 106, 112, 103])) := by
  refine ⟨?_, rfl, rfl, rfl⟩
  intro hex
  have hfind : (w.pictures.find? (fun p => invalidName p.1)).isSome :=
    List.find?_isSome.mpr (by
      rcases hex with ⟨p, hp, hinv⟩
      exact ⟨p, hp, hinv⟩)
  rcases Option.isSome_iff_exists.mp hfind with ⟨p, hp⟩
  have hinv := List.find?_some hp
  refine ⟨p.1, hinv, ⟨p.2, by
    have := List.mem_of_find?_eq_some hp
    simpa using this⟩, ?_⟩
  rw [write, hp]

/-- C8 witness. -/
theorem c8_invalid_filename_atomicity_witness :
    (∃ p ∈ ([([97, 47, 98], PictureSource.bytes [5])] :
        List (List Nat × PictureSource)), invalidName p.1 = true) ∧
    (∃ n, invalidName n = true ∧
      (∃ src, (n, src) ∈ ([([97, 47, 98], PictureSource.bytes [5])] :
        List (List Nat × PictureSource))) ∧
      write (fun _ => none) (CupxWriter.mk ⟨[], []⟩ [([97, 47, 98], .bytes [5])]) =
        ([], some (.invalidFilename n))) := by
  refine ⟨by decide, ?_⟩
  exact (c8_invalid_filename_atomicity (fun _ => none)
    (CupxWriter.mk ⟨[], []⟩ [([97, 47, 98], .bytes [5])])).1 (by decide)

/-- C3 counterexample: a stream in which the scan finds two EOCD signature
occurrences, but whose second-to-last occurrence (offset 0) has no room for
the comment-length field at offset 20, so `from_reader_inner` fails with an
I/O error instead of computing `Some(boundary)` as the claim states. -/
theorem c3_counterexample :
    (scanEocds [80, 75, 5, 6, 80, 75, 5, 6]).2 = some 0 ∧
    (scanEocds [80, 75, 5, 6, 80, 75, 5, 6]).1 = some 4 ∧
    findBoundary [80, 75, 5, 6, 80, 75, 5, 6] = .error .io := by
  have h := scanEocds_eq [80, 75, 5, 6, 80, 75, 5, 6]
  refine ⟨by rw [h]; decide, by rw [h]; decide, ?_⟩
  rw [findBoundary, h]
  rfl

/-- With a second-to-last occurrence `o` whose comment-length field lies
within the stream, the locator reads `c` there and settles the boundary
`o + 22 + c` with no warnings. -/
theorem locator_second_some (s : List Nat) (o : Nat)
    (ho : (scanEocds s).2 = some o) (hin : o + 22 ≤ s.length) :
    ∃ c, readU16 s (o + 20) = some c ∧ findBoundary s = .ok (some (o + 22 + c), []) := by
  rcases ha : s[o + 20]? with _ | a
  · rw [List.getElem?_eq_none_iff] at ha
    omega
  rcases hb : s[o + 21]? with _ | b
  · rw [List.getElem?_eq_none_iff] at hb
    omega
  have hu : readU16 s (o + 20) = some (a + 256 * b) := by
    unfold readU16
    rw [show o + 20 + 1 = o + 21 by omega, ha, hb]
  refine ⟨a + 256 * b, hu, ?_⟩
  rw [findBoundary]
  rcases hscan : scanEocds s with ⟨last, second⟩
  rw [hscan] at ho
  simp only [] at ho
  subst ho
  cases last
  all_goals
    show (match readU16 s (o + 20) with
      | none => Except.error Error.io
      | some commentLen => Except.ok (some (o + 22 + commentLen), [])) =
      Except.ok (some (o + 22 + (a + 256 * b)), [])
  all_goals rw [hu]

/-- C3 (amended): `from_reader_inner` behaves by the number of EOCD
signature occurrences its backward scan finds: with at least two, provided
the comment-length field of the second-to-last occurrence lies within the
stream, it computes `Some(boundary)` and emits no `NoPicturesArchive`
warning; with exactly one it proceeds with no boundary and exactly the
`NoPicturesArchive` warning; with zero it fails with `Error::InvalidCupx`
(and so does the whole of `from_reader_inner`, before either archive is
read). -/
theorem c3_locator_case_analysis (s : List Nat) :
    (∀ o, (scanEocds s).2 = some o → o + 22 ≤ s.length →
      ∃ c, readU16 s (o + 20) = some c ∧ findBoundary s = .ok (some (o + 22 + c), [])) ∧
    ((scanEocds s).2 = none → ∀ x, (scanEocds s).1 = some x →
      findBoundary s = .ok (none, [.noPicturesArchive])) ∧
    (scanEocds s = (none, none) →
      findBoundary s = .error .invalidCupx ∧ fromReaderInner s = .error .invalidCupx) := by
  refine ⟨fun o ho hin => locator_second_some s o ho hin, ?_, ?_⟩
  · intro hnone x hsome
    rw [findBoundary]
    rcases hscan : scanEocds s with ⟨last, second⟩
    rw [hscan] at hnone hsome
    simp only [] at hnone hsome
    subst hnone
    subst hsome
    rfl
  · intro hscan
    have h1 : findBoundary s = .error .invalidCupx := by
      rw [findBoundary, hscan]
    exact ⟨h1, by rw [fromReaderInner, h1]⟩

/-- C3 witness: a stream with a pictures archive and a points archive, at
which the two-occurrence case of the case analysis fires. -/
theorem c3_locator_case_analysis_witness :
    (scanEocds (zipEncode [] ++ zipEncode [(pointsCup, [1])])).2 = some 0 ∧
    0 + 22 ≤ (zipEncode [] ++ zipEncode [(pointsCup, [1])]).length ∧
    (∃ c, readU16 (zipEncode [] ++ zipEncode [(pointsCup, [1])]) (0 + 20) = some c ∧
      findBoundary (zipEncode [] ++ zipEncode [(pointsCup, [1])]) =
        .ok (some (0 + 22 + c), [])) := by
  have h2 : (scanEocds (zipEncode [] ++ zipEncode [(pointsCup, [1])])).2 = some 0 := by
    rw [scanEocds_eq]
    decide
  refine ⟨h2, by decide, ?_⟩
  exact (c3_locator_case_analysis (zipEncode [] ++ zipEncode [(pointsCup, [1])])).1
    0 h2 (by decide)

/-- C4 counterexample: the scan identifies a second-to-last occurrence at
offset 2, but the 2-byte comment-length field at offset 22 is beyond the end
of the stream, so no boundary `o + 22 + c` is computed — `from_reader_inner`
fails with an I/O error instead. -/
theorem c4_counterexample :
    (scanEocds [9, 9, 80, 75, 5, 6, 80, 75, 5, 6]).2 = some 2 ∧
    readU16 [9, 9, 80, 75, 5, 6, 80, 75, 5, 6] (2 + 20) = none ∧
    findBoundary [9, 9, 80, 75, 5, 6, 80, 75, 5, 6] = .error .io ∧
    fromReaderInner [9, 9, 80, 75, 5, 6, 80, 75, 5, 6] = .error .io := by
  have h := scanEocds_eq [9, 9, 80, 75, 5, 6, 80, 75, 5, 6]
  have hfb : findBoundary [9, 9, 80, 75, 5, 6, 80, 75, 5, 6] = .error .io := by
    rw [findBoundary, h]
    rfl
  exact ⟨by rw [h]; decide, by decide, hfb, by rw [fromReaderInner, hfb]⟩

/-- C4 (amended): whenever the scan has identified the second-to-last EOCD
signature at offset `o` and the 2-byte little-endian comment-length field at
`o + 20` lies within the stream, `from_reader_inner` reads it as `c`,
computes the boundary as exactly `o + 22 + c`, and then reads the points
archive from `[o + 22 + c, end)` and the pictures archive from
`[0, o + 22 + c)`. -/
theorem c4_boundary_formula (s : List Nat) (o : Nat)
    (ho : (scanEocds s).2 = some o) (hin : o + 22 ≤ s.length) :
    ∃ c, readU16 s (o + 20) = some c ∧
      findBoundary s = .ok (some (o + 22 + c), []) ∧
      fromReaderInner s =
        readArchives (s.drop (o + 22 + c)) (some (s.take (o + 22 + c))) [] := by
  rcases locator_second_some s o ho hin with ⟨c, hu, hfb⟩
  refine ⟨c, hu, hfb, ?_⟩
  rw [fromReaderInner, hfb]
  rfl

/-- C4 witness. -/
theorem c4_boundary_formula_witness :
    (scanEocds (zipEncode [] ++ zipEncode [(pointsCup, [2])])).2 = some 0 ∧
    0 + 22 ≤ (zipEncode [] ++ zipEncode [(pointsCup, [2])]).length ∧
    (∃ c, readU16 (zipEncode [] ++ zipEncode [(pointsCup, [2])]) (0 + 20) = some c ∧
      findBoundary (zipEncode [] ++ zipEncode [(pointsCup, [2])]) =
        .ok (some (0 + 22 + c), []) ∧
      fromReaderInner (zipEncode [] ++ zipEncode [(pointsCup, [2])]) =
        readArchives ((zipEncode [] ++ zipEncode [(pointsCup, [2])]).drop (0 + 22 + c))
          (some ((zipEncode [] ++ zipEncode [(pointsCup, [2])]).take (0 + 22 + c))) []) := by
  have h2 : (scanEocds (zipEncode [] ++ zipEncode [(pointsCup, [2])])).2 = some 0 := by
    rw [scanEocds_eq]
    decide
  exact ⟨h2, by decide,
    c4_boundary_formula (zipEncode [] ++ zipEncode [(pointsCup, [2])]) 0 h2 (by decide)⟩

/-! ## Round-trip machinery -/

/-- A byte list is a valid start of a UTF-8 string: empty, or its first byte
is not a continuation byte.  (Rust picture names are `String`s, hence valid
UTF-8; this is the fragment of that validity the `is_char_boundary(5)` check
depends on.) -/
def utf8StartOk (n : List Nat) : Bool :=
  match n with
  | [] => true
  | b :: _ => !(decide (128 ≤ b) && decide (b < 192))

/-- The archive entries `CupxWriter::write` produces for a picture map `P`:
each name under the `pics/` prefix. -/
def picsEntries (P : List (List Nat × List Nat)) : List (List Nat × List Nat) :=
  P.map (fun p => (picsDir ++ p.1, p.2))

/-- The byte stream `CupxWriter::write` produces for waypoint data `M` and
byte-sourced pictures `P`. -/
def writeOut (M : CupFile) (P : List (List Nat × List Nat)) : List Nat :=
  zipEncode (picsEntries P) ++ zipEncode [(pointsCup, cupSerialize M)]

theorem buildPics_bytes (fs : List Nat → Option (List Nat))
    (P : List (List Nat × List Nat)) :
    buildPics fs (P.map (fun p => (p.1, PictureSource.bytes p.2))) =
      .ok (picsEntries P) := by
  induction P with
  | nil => rfl
  | cons p t ih =>
    simp only [List.map_cons, buildPics, resolveSource, ih, picsEntries]

/-- `write` with valid names and byte sources succeeds and emits exactly the
pictures archive followed by the points archive. -/
theorem write_bytes (fs : List Nat → Option (List Nat)) (M : CupFile)
    (P : List (List Nat × List Nat)) (hvalid : ∀ p ∈ P, invalidName p.1 = false) :
    write fs ⟨M, P.map (fun p => (p.1, PictureSource.bytes p.2))⟩ =
      (writeOut M P, none) := by
  rw [write]
  have hfind : (P.map (fun p => (p.1, PictureSource.bytes p.2))).find?
      (fun p => invalidName p.1) = none := by
    rw [List.find?_eq_none]
    intro x hx
    rcases List.mem_map.mp hx with ⟨p, hp, rfl⟩
    simp [hvalid p hp]
  rw [hfind, buildPics_bytes]
  rfl

theorem isCharBoundary_picsDir (m : List Nat) (hutf : utf8StartOk m = true) :
    isCharBoundary (picsDir ++ m) 5 = true := by
  rw [isCharBoundary]
  rw [List.getElem?_append_right (by simp [picsDir])]
  simp only [picsDir]
  cases m with
  | nil => simp
  | cons b t =>
    simp only [List.length_cons, List.getElem?_cons_zero]
    simpa [utf8StartOk] using hutf

theorem matchesPic_picsDir (target m : List Nat) (hutf : utf8StartOk m = true) :
    matchesPic target (picsDir ++ m) = (lowerStr m == target) := by
  have hlen : (picsDir ++ m).length = 5 + m.length := by simp [picsDir]; omega
  have htake : (picsDir ++ m).take 5 = picsDir := List.take_left' (by rfl)
  have hdrop : (picsDir ++ m).drop 5 = m := List.drop_left' (by rfl)
  rw [matchesPic, htake, hdrop, isCharBoundary_picsDir m hutf]
  simp [hlen]

theorem find_matches (n : List Nat) (P : List (List Nat × List Nat))
    (hutf : ∀ p ∈ P, utf8StartOk p.1 = true)
    (hci : P.Pairwise (fun p q => lowerStr p.1 ≠ lowerStr q.1))
    (hmem : ∃ d, (n, d) ∈ P) :
    ((picsEntries P).map (fun e => e.1)).find?
      (fun nm => matchesPic (lowerStr n) nm) = some (picsDir ++ n) := by
  induction P with
  | nil =>
    rcases hmem with ⟨d, hd⟩
    exact absurd hd (List.not_mem_nil _)
  | cons p t ih =>
    have hup : utf8StartOk p.1 = true := hutf p (List.mem_cons_self p t)
    simp only [picsEntries, List.map_cons, List.find?_cons]
    rw [matchesPic_picsDir _ _ hup]
    rcases hmem with ⟨d, hd⟩
    by_cases hmatch : lowerStr p.1 = lowerStr n
    · have hp1 : p.1 = n := by
        rcases List.mem_cons.mp hd with rfl | hdt
        · rfl
        · exact absurd hmatch ((List.pairwise_cons.mp hci).1 (n, d) hdt)
      have hbeq : (lowerStr p.1 == lowerStr n) = true := by simp [hmatch]
      rw [hbeq, hp1]
    · have hbeq : (lowerStr p.1 == lowerStr n) = false := by simpa using hmatch
      rw [hbeq]
      have hnt : (n, d) ∈ t := by
        rcases List.mem_cons.mp hd with rfl | hdt
        · exact absurd rfl hmatch
        · exact hdt
      have := ih (fun q hq => hutf q (List.mem_cons_of_mem p hq))
        (List.pairwise_cons.mp hci).2 ⟨d, hnt⟩
      simpa [picsEntries] using this

theorem lookup_exact (n d : List Nat) (P : List (List Nat × List Nat))
    (hci : P.Pairwise (fun p q => lowerStr p.1 ≠ lowerStr q.1))
    (hmem : (n, d) ∈ P) :
    lookupName (picsEntries P) (picsDir ++ n) = some d := by
  induction P with
  | nil => exact absurd hmem (List.not_mem_nil _)
  | cons p t ih =>
    simp only [picsEntries, lookupName, List.map_cons, List.find?_cons]
    rcases List.mem_cons.mp hmem with rfl | hdt
    · have hbeq : (picsDir ++ (n, d).1 == picsDir ++ n) = true := by simp
      rw [hbeq]
      rfl
    · have hne : p.1 ≠ n := by
        intro h
        exact (List.pairwise_cons.mp hci).1 (n, d) hdt (by rw [h])
      have hbeq : (picsDir ++ p.1 == picsDir ++ n) = false := by simpa using hne
      rw [hbeq]
      have := ih (List.pairwise_cons.mp hci).2 hdt
      simpa [picsEntries, lookupName] using this

theorem picture_names_entries (cf : CupFile) (P : List (List Nat × List Nat))
    (hutf : ∀ p ∈ P, utf8StartOk p.1 = true) :
    CupxFile.picture_names ⟨cf, some (picsEntries P)⟩ = P.map (fun p => p.1) := by
  rw [CupxFile.picture_names]
  induction P with
  | nil => rfl
  | cons p t ih =>
    have hup : utf8StartOk p.1 = true := hutf p (List.mem_cons_self p t)
    simp only [picsEntries, List.map_cons, List.filterMap_cons]
    have hbound : isCharBoundary (picsDir ++ p.1) 5 = true :=
      isCharBoundary_picsDir p.1 hup
    rw [if_pos ⟨by simp [picsDir], hbound, by rw [List.take_left' (by rfl)]⟩]
    rw [List.drop_left' (show (picsDir).length = 5 from rfl)]
    have := ih (fun q hq => hutf q (List.mem_cons_of_mem p hq))
    simpa [picsEntries] using this

/-- `read_picture` on the written entries returns the stored bytes of the
requested name, given valid-UTF-8 names that are pairwise distinct under
case-insensitive comparison. -/
theorem read_picture_entries (cf : CupFile) (P : List (List Nat × List Nat))
    (n d : List Nat)
    (hutf : ∀ p ∈ P, utf8StartOk p.1 = true)
    (hci : P.Pairwise (fun p q => lowerStr p.1 ≠ lowerStr q.1))
    (hmem : (n, d) ∈ P) :
    CupxFile.read_picture ⟨cf, some (picsEntries P)⟩ n = .ok d := by
  rw [CupxFile.read_picture]
  simp only []
  rw [find_matches n P hutf hci ⟨d, hmem⟩]
  simp only []
  rw [lookup_exact n d P hci hmem]

/-- A `Pairwise (· < ·)` list whose members are exactly `{x, y, w}` with
`x < y < w` is `[x, y, w]`. -/
theorem sorted_eq_triple {l : List Nat} {x y w : Nat} (hxy : x < y) (hyw : y < w)
    (hs : l.Pairwise (· < ·)) (hm : ∀ z, z ∈ l ↔ z = x ∨ z = y ∨ z = w) :
    l = [x, y, w] := by
  cases l with
  | nil => exact absurd ((hm x).mpr (Or.inl rfl)) (List.not_mem_nil x)
  | cons a t =>
    have hat : ∀ z ∈ t, a < z := (List.pairwise_cons.mp hs).1
    have hax : a = x := by
      have hxmem := (hm x).mpr (Or.inl rfl)
      rcases (hm a).mp (List.mem_cons_self a t) with h | h | h
      · exact h
      · subst h
        rcases List.mem_cons.mp hxmem with h' | h'
        · omega
        · have := hat x h'; omega
      · subst h
        rcases List.mem_cons.mp hxmem with h' | h'
        · omega
        · have := hat x h'; omega
    subst hax
    have ht : t = [y, w] := by
      apply sorted_eq_pair hyw (List.pairwise_cons.mp hs).2
      intro z
      constructor
      · intro hz
        rcases (hm z).mp (List.mem_cons_of_mem a hz) with h | h | h
        · have := hat z hz; omega
        · exact Or.inl h
        · exact Or.inr h
      · intro hz
        rcases hz with rfl | rfl
        · rcases List.mem_cons.mp ((hm z).mpr (Or.inr (Or.inl rfl))) with h | h
          · omega
          · exact h
        · rcases List.mem_cons.mp ((hm z).mpr (Or.inr (Or.inr rfl))) with h | h
          · omega
          · exact h
    rw [ht]

/-- The EOCD signature occurrences of two concatenated encoded archives are
exactly the two archives' own EOCD signatures. -/
theorem sigOffsets_two (a b : List (List Nat × List Nat)) :
    sigOffsets (zipEncode a ++ zipEncode b) =
      [(tableOf a).length, (zipEncode a).length + (tableOf b).length] := by
  have hla := length_zipEncode a
  apply sorted_eq_pair (by omega) (sigOffsets_sorted _)
  intro z
  rw [mem_sigOffsets]
  constructor
  · intro hsig
    have h80 := byte80_of_sigAt hsig
    rcases Nat.lt_or_ge z (zipEncode a).length with hlt | hge
    · rw [List.getElem?_append_left hlt] at h80
      exact Or.inl ((byte80_zipEncode a z).mp h80)
    · rw [List.getElem?_append_right hge] at h80
      have := (byte80_zipEncode b (z - (zipEncode a).length)).mp h80
      right
      omega
  · intro hz
    rcases hz with rfl | rfl
    · rw [sigAt_append_left _ _ _ (by omega)]
      exact sigAt_zipEncode_self a
    · rw [sigAt_append_right]
      exact sigAt_zipEncode_self b

/-- The EOCD signature occurrences of three concatenated encoded archives. -/
theorem sigOffsets_three (z a b : List (List Nat × List Nat)) :
    sigOffsets (zipEncode z ++ zipEncode a ++ zipEncode b) =
      [(tableOf z).length, (zipEncode z).length + (tableOf a).length,
        (zipEncode z).length + (zipEncode a).length + (tableOf b).length] := by
  have hlz := length_zipEncode z
  have hla := length_zipEncode a
  apply sorted_eq_triple (by omega) (by omega) (sigOffsets_sorted _)
  intro i
  rw [mem_sigOffsets]
  constructor
  · intro hsig
    have h80 := byte80_of_sigAt hsig
    rcases Nat.lt_or_ge i (zipEncode z ++ zipEncode a).length with hlt | hge
    · rw [List.getElem?_append_left hlt] at h80
      rcases Nat.lt_or_ge i (zipEncode z).length with hlt2 | hge2
      · rw [List.getElem?_append_left hlt2] at h80
        exact Or.inl ((byte80_zipEncode z i).mp h80)
      · rw [List.getElem?_append_right hge2] at h80
        have := (byte80_zipEncode a (i - (zipEncode z).length)).mp h80
        right; left
        omega
    · rw [List.getElem?_append_right hge] at h80
      have := (byte80_zipEncode b (i - (zipEncode z ++ zipEncode a).length)).mp h80
      rw [List.length_append] at this hge
      right; right
      omega
  · intro hi
    rcases hi with rfl | rfl | rfl
    · rw [sigAt_append_left _ _ _ (by simp [List.length_append]; omega)]
      rw [sigAt_append_left _ _ _ (by omega)]
      exact sigAt_zipEncode_self z
    · rw [sigAt_append_left _ _ _ (by simp [List.length_append]; omega)]
      rw [sigAt_append_right]
      exact sigAt_zipEncode_self a
    · rw [show (zipEncode z).length + (zipEncode a).length + (tableOf b).length =
        (zipEncode z ++ zipEncode a).length + (tableOf b).length by
          simp [List.length_append]]
      rw [sigAt_append_right]
      exact sigAt_zipEncode_self b

/-- The trailing archive's EOCD signature window never spans a chunk
boundary: it sits in the last 22 bytes of the stream. -/
theorem found_trailing (J : List Nat) (b : List (List Nat × List Nat)) :
    found (J ++ zipEncode b).length (J.length + (tableOf b).length) = true := by
  have hl : (J ++ zipEncode b).length = J.length + (tableOf b).length + 22 := by
    rw [List.length_append, length_zipEncode]
    omega
  rw [hl]
  simp only [found, chunkSize, decide_eq_true_eq]
  omega

theorem lastTwo_pair (x y : Nat) : lastTwo [x, y] = (some y, some x) := by
  simp [lastTwo]

theorem lookupName_head (nm d : List Nat) (t : List (List Nat × List Nat)) :
    lookupName ((nm, d) :: t) nm = some d := by
  simp [lookupName, List.find?_cons]

/-- The boundary locator on two concatenated encoded archives, when the
first archive's EOCD signature window does not span a chunk boundary:
boundary found at the first archive's end, no warnings. -/
theorem findBoundary_two (a b : List (List Nat × List Nat))
    (hfa : found (zipEncode a ++ zipEncode b).length (tableOf a).length = true) :
    findBoundary (zipEncode a ++ zipEncode b) = .ok (some (zipEncode a).length, []) := by
  have hla := length_zipEncode a
  have hfb : found (zipEncode a ++ zipEncode b).length
      ((zipEncode a).length + (tableOf b).length) = true := found_trailing (zipEncode a) b
  have hocc : foundOccs (zipEncode a ++ zipEncode b) =
      [(tableOf a).length, (zipEncode a).length + (tableOf b).length] := by
    rw [foundOccs, sigOffsets_two]
    simp only [List.filter_cons, List.filter_nil, hfa, hfb]
    simp
  have hc := comment_bytes_append ([] : List Nat) a
  simp only [List.nil_append, List.length_nil, Nat.zero_add] at hc
  have h20 : (zipEncode a ++ zipEncode b)[(tableOf a).length + 20]? = some 0 := by
    rw [List.getElem?_append_left (by omega)]
    exact hc.1
  have h21 : (zipEncode a ++ zipEncode b)[(tableOf a).length + 21]? = some 0 := by
    rw [List.getElem?_append_left (by omega)]
    exact hc.2
  have hu : readU16 (zipEncode a ++ zipEncode b) ((tableOf a).length + 20) = some 0 := by
    rw [readU16, h20, show (tableOf a).length + 20 + 1 = (tableOf a).length + 21 by omega, h21]
  rw [findBoundary, scanEocds_eq, hocc, lastTwo_pair]
  show (match readU16 (zipEncode a ++ zipEncode b) ((tableOf a).length + 20) with
    | none => Except.error Error.io
    | some commentLen => Except.ok (some ((tableOf a).length + 22 + commentLen), [])) =
    Except.ok (some (zipEncode a).length, [])
  rw [hu]
  simp
  omega

/-- Reading back a written container: the core of the round-trip. -/
theorem fromReaderInner_writeOut (M : CupFile) (P : List (List Nat × List Nat))
    (hT1 : (tableOf (picsEntries P)).length < 16 ^ 16)
    (hT2 : (tableOf [(pointsCup, cupSerialize M)]).length < 16 ^ 16)
    (hfound : found (zipEncode (picsEntries P) ++
        zipEncode [(pointsCup, cupSerialize M)]).length
      (tableOf (picsEntries P)).length = true) :
    fromReaderInner (writeOut M P) = .ok (⟨M, some (picsEntries P)⟩, []) := by
  have hfb := findBoundary_two (picsEntries P) [(pointsCup, cupSerialize M)] hfound
  rw [fromReaderInner, writeOut, hfb]
  simp only [Option.getD_some, Option.map_some']
  rw [List.drop_left, List.take_left]
  have hdecB := zipDecode_append [] [(pointsCup, cupSerialize M)] hT2
  rw [List.nil_append] at hdecB
  have hdecA := zipDecode_append [] (picsEntries P) hT1
  rw [List.nil_append] at hdecA
  rw [readArchives, hdecB]
  simp only []
  rw [lookupName_head]
  simp only []
  rw [cupFromReader_cupSerialize]
  simp only []
  rw [hdecA]
  simp

theorem lastTwo_single (x : Nat) : lastTwo [x] = (some x, none) := by
  simp [lastTwo]

theorem lastTwo_triple (x y w : Nat) : lastTwo [x, y, w] = (some w, some y) := by
  simp [lastTwo]

theorem encB_append (x y : List Nat) : encB (x ++ y) = encB x ++ encB y := by
  simp [encB, List.flatMap_append]

theorem flatten_replicate_singleton (m c : Nat) :
    (List.replicate m [c]).flatten = List.replicate m c := by
  induction m with
  | zero => rfl
  | succ m ih => simp [List.replicate_succ, ih]

theorem length_encB_replicate (k c : Nat) :
    (encB (List.replicate k c)).length = k * (natEnc c).length := by
  induction k with
  | zero => simp [encB]
  | succ k ih =>
    simp only [List.replicate_succ, encB, List.flatMap_cons, List.length_append] at *
    rw [ih]
    ring

/-- The serialization of a waypoint model with `m` empty waypoint records. -/
theorem cupSerialize_replicate_nil (m : Nat) :
    cupSerialize ⟨List.replicate m [], []⟩ =
      natEnc m ++ (List.replicate m 16 ++ [16]) := by
  have hf : (fun (x : List Nat) => natEnc x.length ++ encB x) [] = [16] := rfl
  rw [cupSerialize]
  simp only [encItems, List.map_replicate, hf, flatten_replicate_singleton,
    List.length_replicate, List.map_nil, List.flatten_nil]
  have h0 : natEnc ([] : List (List Nat)).length = [16] := rfl
  rw [h0]
  simp [List.append_assoc]

/-- The boundary locator on three concatenated encoded archives, when the
middle archive's EOCD signature window does not span a chunk boundary: the
boundary is found after the *middle* archive (only the last two occurrences
are ever considered, so the leading archive is silently excluded). -/
theorem findBoundary_three (z a b : List (List Nat × List Nat))
    (hfa : found (zipEncode z ++ zipEncode a ++ zipEncode b).length
      ((zipEncode z).length + (tableOf a).length) = true) :
    findBoundary (zipEncode z ++ zipEncode a ++ zipEncode b) =
      .ok (some ((zipEncode z).length + (zipEncode a).length), []) := by
  have hla := length_zipEncode a
  have hlz := length_zipEncode z
  have hfb : found (zipEncode z ++ zipEncode a ++ zipEncode b).length
      ((zipEncode z).length + (zipEncode a).length + (tableOf b).length) = true := by
    have := found_trailing (zipEncode z ++ zipEncode a) b
    rw [List.length_append (zipEncode z) (zipEncode a)] at this
    exact this
  have hocc : foundOccs (zipEncode z ++ zipEncode a ++ zipEncode b) =
      (if found (zipEncode z ++ zipEncode a ++ zipEncode b).length (tableOf z).length
        then [(tableOf z).length] else []) ++
      [(zipEncode z).length + (tableOf a).length,
        (zipEncode z).length + (zipEncode a).length + (tableOf b).length] := by
    rw [foundOccs, sigOffsets_three]
    by_cases hz : found (zipEncode z ++ zipEncode a ++ zipEncode b).length (tableOf z).length
    · simp only [List.filter_cons, List.filter_nil, hfa, hfb, hz]
      simp
    · simp only [Bool.not_eq_true] at hz
      simp only [List.filter_cons, List.filter_nil, hfa, hfb, hz]
      simp
  have hc := comment_bytes_append (zipEncode z) a
  have h20 : (zipEncode z ++ zipEncode a ++ zipEncode b)[(zipEncode z).length +
      (tableOf a).length + 20]? = some 0 := by
    rw [List.getElem?_append_left (by rw [List.length_append]; omega)]
    exact hc.1
  have h21 : (zipEncode z ++ zipEncode a ++ zipEncode b)[(zipEncode z).length +
      (tableOf a).length + 21]? = some 0 := by
    rw [List.getElem?_append_left (by rw [List.length_append]; omega)]
    exact hc.2
  have hu : readU16 (zipEncode z ++ zipEncode a ++ zipEncode b)
      ((zipEncode z).length + (tableOf a).length + 20) = some 0 := by
    rw [readU16, h20, show (zipEncode z).length + (tableOf a).length + 20 + 1 =
      (zipEncode z).length + (tableOf a).length + 21 by omega, h21]
  have hlast : lastTwo ((if found (zipEncode z ++ zipEncode a ++ zipEncode b).length
        (tableOf z).length then [(tableOf z).length] else []) ++
      [(zipEncode z).length + (tableOf a).length,
        (zipEncode z).length + (zipEncode a).length + (tableOf b).length]) =
      (some ((zipEncode z).length + (zipEncode a).length + (tableOf b).length),
        some ((zipEncode z).length + (tableOf a).length)) := by
    rw [lastTwo_append_of_two_le (by simp)]
    exact lastTwo_pair _ _
  rw [findBoundary, scanEocds_eq, hocc, hlast]
  show (match readU16 (zipEncode z ++ zipEncode a ++ zipEncode b)
      ((zipEncode z).length + (tableOf a).length + 20) with
    | none => Except.error Error.io
    | some commentLen => Except.ok
        (some ((zipEncode z).length + (tableOf a).length + 22 + commentLen), [])) =
    Except.ok (some ((zipEncode z).length + (zipEncode a).length), [])
  rw [hu]
  simp
  omega

/-- Reading back a container with an extra leading archive: the leading
archive is silently excluded and the last two archives supply the data. -/
theorem fromReaderInner_three (es0 : List (List Nat × List Nat)) (M : CupFile)
    (P : List (List Nat × List Nat))
    (hT1 : (tableOf (picsEntries P)).length < 16 ^ 16)
    (hT2 : (tableOf [(pointsCup, cupSerialize M)]).length < 16 ^ 16)
    (hfa : found (zipEncode es0 ++ zipEncode (picsEntries P) ++
        zipEncode [(pointsCup, cupSerialize M)]).length
      ((zipEncode es0).length + (tableOf (picsEntries P)).length) = true) :
    fromReaderInner (zipEncode es0 ++ zipEncode (picsEntries P) ++
        zipEncode [(pointsCup, cupSerialize M)]) =
      .ok (⟨M, some (picsEntries P)⟩, []) := by
  have hfb := findBoundary_three es0 (picsEntries P) [(pointsCup, cupSerialize M)] hfa
  rw [fromReaderInner, hfb]
  simp only [Option.getD_some, Option.map_some']
  rw [show (zipEncode es0).length + (zipEncode (picsEntries P)).length =
    (zipEncode es0 ++ zipEncode (picsEntries P)).length by rw [List.length_append]]
  rw [List.drop_left, List.take_left]
  have hdecB := zipDecode_append [] [(pointsCup, cupSerialize M)] hT2
  rw [List.nil_append] at hdecB
  have hdecA := zipDecode_append (zipEncode es0) (picsEntries P) hT1
  rw [readArchives, hdecB]
  simp only []
  rw [lookupName_head]
  simp only []
  rw [cupFromReader_cupSerialize]
  simp only []
  rw [hdecA]
  simp

set_option maxRecDepth 8000 in
/-- C1 counterexample: two picture names that differ only in ASCII case
(`"A"` and `"a"`).  Writing and re-reading succeeds, but `read_picture "a"`
returns the bytes stored under `"A"` (the first case-insensitive match), not
the bytes the map assigns to `"a"`. -/
theorem c1_counterexample :
    write (fun _ => none) ⟨⟨[], []⟩, [([65], .bytes [1]), ([97], .bytes [2])]⟩ =
      (writeOut ⟨[], []⟩ [([65], [1]), ([97], [2])], none) ∧
    fromReaderInner (writeOut ⟨[], []⟩ [([65], [1]), ([97], [2])]) =
      .ok (⟨⟨[], []⟩, some (picsEntries [([65], [1]), ([97], [2])])⟩, []) ∧
    CupxFile.read_picture ⟨⟨[], []⟩, some (picsEntries [([65], [1]), ([97], [2])])⟩ [97] =
      .ok [1] ∧
    (Except.ok [1] : Except Error (List Nat)) ≠ .ok [2] := by
  refine ⟨write_bytes (fun _ => none) ⟨[], []⟩ [([65], [1]), ([97], [2])] (by decide),
    ?_, rfl, by simp⟩
  exact fromReaderInner_writeOut ⟨[], []⟩ [([65], [1]), ([97], [2])]
    (by decide) (by decide) (by decide)

/-- C1 (amended): the round-trip property, for picture maps whose names are
valid (non-empty, no path separators, valid UTF-8 starts) and pairwise
distinct under the case-insensitive comparison `read_picture` uses, whose
encoded tables fit the EOCD size field, and whose pictures archive EOCD does
not straddle a chunk boundary of the backward search: `write` succeeds, and
reading the output back yields the same waypoints and tasks, the picture
names of the map, and, for every map entry, its exact bytes. -/
theorem c1_round_trip (fs : List Nat → Option (List Nat)) (M : CupFile)
    (P : List (List Nat × List Nat))
    (hvalid : ∀ p ∈ P, invalidName p.1 = false)
    (hutf : ∀ p ∈ P, utf8StartOk p.1 = true)
    (hci : P.Pairwise (fun p q => lowerStr p.1 ≠ lowerStr q.1))
    (hT1 : (tableOf (picsEntries P)).length < 16 ^ 16)
    (hT2 : (tableOf [(pointsCup, cupSerialize M)]).length < 16 ^ 16)
    (hfound : found (zipEncode (picsEntries P) ++
        zipEncode [(pointsCup, cupSerialize M)]).length
      (tableOf (picsEntries P)).length = true) :
    write fs ⟨M, P.map (fun p => (p.1, PictureSource.bytes p.2))⟩ = (writeOut M P, none) ∧
    ∃ f, fromReaderInner (writeOut M P) = .ok (f, []) ∧
      f.waypoints = M.waypoints ∧ f.tasks = M.tasks ∧
      f.picture_names = P.map (fun p => p.1) ∧
      ∀ p ∈ P, f.read_picture p.1 = .ok p.2 := by
  refine ⟨write_bytes fs M P hvalid,
    ⟨⟨M, some (picsEntries P)⟩, fromReaderInner_writeOut M P hT1 hT2 hfound,
      rfl, rfl, picture_names_entries M P hutf, ?_⟩⟩
  intro p hp
  exact read_picture_entries M P p.1 p.2 hutf hci hp

set_option maxRecDepth 8000 in
/-- C1 witness. -/
theorem c1_round_trip_witness :
    ((∀ p ∈ [([97], [7])], invalidName p.1 = false) ∧
      (∀ p ∈ [([97], [7])], utf8StartOk p.1 = true) ∧
      (tableOf (picsEntries [([97], [7])])).length < 16 ^ 16 ∧
      (tableOf [(pointsCup, cupSerialize ⟨[[1]], [[2]]⟩)]).length < 16 ^ 16 ∧
      found (zipEncode (picsEntries [([97], [7])]) ++
          zipEncode [(pointsCup, cupSerialize ⟨[[1]], [[2]]⟩)]).length
        (tableOf (picsEntries [([97], [7])])).length = true) ∧
    write (fun _ => none) ⟨⟨[[1]], [[2]]⟩, [([97], PictureSource.bytes [7])]⟩ =
      (writeOut ⟨[[1]], [[2]]⟩ [([97], [7])], none) ∧
    (∃ f, fromReaderInner (writeOut ⟨[[1]], [[2]]⟩ [([97], [7])]) = .ok (f, []) ∧
      f.waypoints = [[1]] ∧ f.tasks = [[2]] ∧
      f.picture_names = [[97]] ∧
      ∀ p ∈ [([97], [7])], f.read_picture p.1 = .ok p.2) := by
  have h := c1_round_trip (fun _ => none) ⟨[[1]], [[2]]⟩ [([97], [7])]
    (by decide) (by decide) (by simp) (by decide) (by decide) (by decide)
  exact ⟨⟨by decide, by decide, by decide, by decide, by decide⟩, h.1, h.2⟩

/-- C6 counterexample: writing an empty picture set and reading the output
back yields an empty warning list — in particular not the
`NoPicturesArchive` warning the claim asserts (the empty pictures archive is
still a genuine archive, so two EOCD records are found). -/
theorem c6_counterexample :
    fromReaderInner (writeOut ⟨[], []⟩ []) = .ok (⟨⟨[], []⟩, some []⟩, []) ∧
    Warning.noPicturesArchive ∉ ([] : List Warning) := by
  refine ⟨?_, by simp⟩
  exact fromReaderInner_writeOut ⟨[], []⟩ [] (by decide) (by decide) (by decide)

/-- C6 (amended): for every waypoint model `M` (whose points archive table
fits the size field and whose leading empty-archive EOCD does not straddle a
chunk boundary of the backward search), writing with an empty picture set
still writes a valid empty pictures archive first — the output contains
exactly two EOCD signatures — and reading it back succeeds with *no*
`NoPicturesArchive` warning and an empty `picture_names()` enumeration. -/
theorem c6_empty_picture_set (fs : List Nat → Option (List Nat)) (M : CupFile)
    (hT2 : (tableOf [(pointsCup, cupSerialize M)]).length < 16 ^ 16)
    (hfound : found (zipEncode (picsEntries []) ++
        zipEncode [(pointsCup, cupSerialize M)]).length
      (tableOf (picsEntries [])).length = true) :
    write fs ⟨M, []⟩ = (writeOut M [], none) ∧
    sigOffsets (writeOut M []) =
      [0, (zipEncode (picsEntries [])).length + (tableOf [(pointsCup, cupSerialize M)]).length] ∧
    fromReaderInner (writeOut M []) = .ok (⟨M, some []⟩, []) ∧
    CupxFile.picture_names ⟨M, some []⟩ = [] := by
  refine ⟨write_bytes fs M [] (by simp), ?_, ?_, rfl⟩
  · rw [writeOut, sigOffsets_two]
    have h0 : (tableOf (picsEntries [])).length = 0 := by decide
    rw [h0]
  · exact fromReaderInner_writeOut M [] (by decide) hT2 hfound

/-- C6 witness. -/
theorem c6_empty_picture_set_witness :
    ((tableOf [(pointsCup, cupSerialize ⟨[[3]], []⟩)]).length < 16 ^ 16 ∧
      found (zipEncode (picsEntries []) ++
          zipEncode [(pointsCup, cupSerialize ⟨[[3]], []⟩)]).length
        (tableOf (picsEntries [])).length = true) ∧
    write (fun _ => none) ⟨⟨[[3]], []⟩, []⟩ = (writeOut ⟨[[3]], []⟩ [], none) ∧
    fromReaderInner (writeOut ⟨[[3]], []⟩ []) = .ok (⟨⟨[[3]], []⟩, some []⟩, []) ∧
    CupxFile.picture_names ⟨⟨[[3]], []⟩, some []⟩ = [] := by
  have h := c6_empty_picture_set (fun _ => none) ⟨[[3]], []⟩ (by decide) (by decide)
  exact ⟨⟨by decide, by decide⟩, h.1, h.2.2.1, h.2.2.2⟩

/-! ## Chunk-boundary straddles: windows invisible to the per-chunk search -/

/-- Two concatenated archives whose first EOCD window spans a chunk cut: the
scan sees only the trailing occurrence and degrades to the no-pictures
case. -/
theorem findBoundary_two_straddled (a b : List (List Nat × List Nat))
    (hfa : found (zipEncode a ++ zipEncode b).length (tableOf a).length = false) :
    findBoundary (zipEncode a ++ zipEncode b) = .ok (none, [.noPicturesArchive]) := by
  have hfb : found (zipEncode a ++ zipEncode b).length
      ((zipEncode a).length + (tableOf b).length) = true := found_trailing (zipEncode a) b
  have hocc : foundOccs (zipEncode a ++ zipEncode b) =
      [(zipEncode a).length + (tableOf b).length] := by
    rw [foundOccs, sigOffsets_two]
    simp only [List.filter_cons, List.filter_nil, hfa, hfb]
    simp
  rw [findBoundary, scanEocds_eq, hocc, lastTwo_single]

theorem fromReaderInner_two_straddled (a : List (List Nat × List Nat)) (M : CupFile)
    (hT2 : (tableOf [(pointsCup, cupSerialize M)]).length < 16 ^ 16)
    (hfa : found (zipEncode a ++ zipEncode [(pointsCup, cupSerialize M)]).length
      (tableOf a).length = false) :
    fromReaderInner (zipEncode a ++ zipEncode [(pointsCup, cupSerialize M)]) =
      .ok (⟨M, none⟩, [.noPicturesArchive]) := by
  have hfb := findBoundary_two_straddled a [(pointsCup, cupSerialize M)] hfa
  rw [fromReaderInner, hfb]
  simp only [Option.getD_none, Option.map_none', List.drop_zero]
  have hdec := zipDecode_append (zipEncode a) [(pointsCup, cupSerialize M)] hT2
  rw [readArchives, hdec]
  simp only []
  rw [lookupName_head]
  simp only []
  rw [cupFromReader_cupSerialize]
  simp only []
  simp

/-- Three concatenated archives with the middle EOCD window spanning a chunk
cut while the leading one is visible: the scan pairs the trailing occurrence
with the *leading* one, so the boundary lands right after the first
archive. -/
theorem findBoundary_three_straddled (z a b : List (List Nat × List Nat))
    (hz : found (zipEncode z ++ zipEncode a ++ zipEncode b).length (tableOf z).length = true)
    (hfa : found (zipEncode z ++ zipEncode a ++ zipEncode b).length
      ((zipEncode z).length + (tableOf a).length) = false) :
    findBoundary (zipEncode z ++ zipEncode a ++ zipEncode b) =
      .ok (some (zipEncode z).length, []) := by
  have hlz := length_zipEncode z
  have hfb : found (zipEncode z ++ zipEncode a ++ zipEncode b).length
      ((zipEncode z).length + (zipEncode a).length + (tableOf b).length) = true := by
    have := found_trailing (zipEncode z ++ zipEncode a) b
    rw [List.length_append (zipEncode z) (zipEncode a)] at this
    exact this
  have hocc : foundOccs (zipEncode z ++ zipEncode a ++ zipEncode b) =
      [(tableOf z).length,
        (zipEncode z).length + (zipEncode a).length + (tableOf b).length] := by
    rw [foundOccs, sigOffsets_three]
    simp only [List.filter_cons, List.filter_nil, hz, hfa, hfb]
    simp
  have hc := comment_bytes_append ([] : List Nat) z
  simp only [List.nil_append, List.length_nil, Nat.zero_add] at hc
  have h20 : (zipEncode z ++ zipEncode a ++ zipEncode b)[(tableOf z).length + 20]? =
      some 0 := by
    rw [List.getElem?_append_left (by rw [List.length_append]; omega)]
    rw [List.getElem?_append_left (by omega)]
    exact hc.1
  have h21 : (zipEncode z ++ zipEncode a ++ zipEncode b)[(tableOf z).length + 21]? =
      some 0 := by
    rw [List.getElem?_append_left (by rw [List.length_append]; omega)]
    rw [List.getElem?_append_left (by omega)]
    exact hc.2
  have hu : readU16 (zipEncode z ++ zipEncode a ++ zipEncode b) ((tableOf z).length + 20) =
      some 0 := by
    rw [readU16, h20, show (tableOf z).length + 20 + 1 = (tableOf z).length + 21 by omega,
      h21]
  rw [findBoundary, scanEocds_eq, hocc, lastTwo_pair]
  show (match readU16 (zipEncode z ++ zipEncode a ++ zipEncode b)
      ((tableOf z).length + 20) with
    | none => Except.error Error.io
    | some commentLen => Except.ok (some ((tableOf z).length + 22 + commentLen), [])) =
    Except.ok (some (zipEncode z).length, [])
  rw [hu]
  simp
  omega

/-- Reading a three-archive container whose middle (pictures) EOCD window
straddles a chunk cut: the junk leading archive is served as the pictures
archive, with no warning at all. -/
theorem fromReaderInner_three_straddled (z : List (List Nat × List Nat)) (M : CupFile)
    (P : List (List Nat × List Nat))
    (hTz : (tableOf z).length < 16 ^ 16)
    (hT2 : (tableOf [(pointsCup, cupSerialize M)]).length < 16 ^ 16)
    (hz : found (zipEncode z ++ zipEncode (picsEntries P) ++
        zipEncode [(pointsCup, cupSerialize M)]).length (tableOf z).length = true)
    (hfa : found (zipEncode z ++ zipEncode (picsEntries P) ++
        zipEncode [(pointsCup, cupSerialize M)]).length
      ((zipEncode z).length + (tableOf (picsEntries P)).length) = false) :
    fromReaderInner (zipEncode z ++ zipEncode (picsEntries P) ++
        zipEncode [(pointsCup, cupSerialize M)]) = .ok (⟨M, some z⟩, []) := by
  have hfb := findBoundary_three_straddled z (picsEntries P)
    [(pointsCup, cupSerialize M)] hz hfa
  rw [fromReaderInner, hfb]
  simp only [Option.getD_some, Option.map_some']
  rw [List.append_assoc, List.drop_left, List.take_left]
  have hdecB := zipDecode_append (zipEncode (picsEntries P))
    [(pointsCup, cupSerialize M)] hT2
  have hdecZ := zipDecode_append [] z hTz
  rw [List.nil_append] at hdecZ
  rw [readArchives, hdecB]
  simp only []
  rw [lookupName_head]
  simp only []
  rw [cupFromReader_cupSerialize]
  simp only []
  rw [hdecZ]
  simp

/-! ## Concrete sizes for the chunk-straddle demonstrations -/

theorem natDigits_43660 : natDigits 43660 = [12, 8, 10, 10] := by
  have d1 := natDigits_succ 43659
  have d2 := natDigits_succ 2727
  have d3 := natDigits_succ 169
  have d4 : natDigits 10 = [10] := by decide
  norm_num at d1 d2 d3
  rw [d1, d2, d3, d4]

theorem natDigits_43666 : natDigits 43666 = [2, 9, 10, 10] := by
  have d1 := natDigits_succ 43665
  have d2 := natDigits_succ 2728
  have d3 := natDigits_succ 169
  have d4 : natDigits 10 = [10] := by decide
  norm_num at d1 d2 d3
  rw [d1, d2, d3, d4]

theorem cupBig_len : (cupSerialize ⟨List.replicate 43660 [], []⟩).length = 43666 := by
  rw [cupSerialize_replicate_nil]
  have h : (natEnc 43660).length = 5 := by rw [natEnc, natDigits_43660]; rfl
  rw [List.length_append, h, List.length_append, List.length_replicate,
    List.length_cons, List.length_nil]

theorem encB_cupBig_len :
    (encB (cupSerialize ⟨List.replicate 43660 [], []⟩)).length = 130994 := by
  rw [cupSerialize_replicate_nil, encB_append, encB_append]
  have h1 : (encB (natEnc 43660)).length = 11 := by
    rw [natEnc, natDigits_43660]
    decide
  have h2 : (natEnc 16).length = 3 := by decide
  have h3 : (encB [16]).length = 3 := by decide
  rw [List.length_append, List.length_append, h1, length_encB_replicate, h2, h3]

theorem tableBig_len :
    (tableOf [(pointsCup, cupSerialize ⟨List.replicate 43660 [], []⟩)]).length =
      131031 := by
  have ht : tableOf [(pointsCup, cupSerialize ⟨List.replicate 43660 [], []⟩)] =
      natEnc pointsCup.length ++ encB pointsCup ++
      natEnc (cupSerialize ⟨List.replicate 43660 [], []⟩).length ++
      encB (cupSerialize ⟨List.replicate 43660 [], []⟩) := by
    rw [tableOf, List.map_cons, List.map_nil, List.flatten_cons, List.flatten_nil,
      List.append_nil, encEntry]
  rw [ht, List.length_append, List.length_append, List.length_append, cupBig_len,
    encB_cupBig_len]
  have h1 : (natEnc pointsCup.length).length = 2 := by decide
  have h2 : (encB pointsCup).length = 30 := by decide
  have h3 : (natEnc 43666).length = 5 := by rw [natEnc, natDigits_43666]; rfl
  omega

theorem zipBig_len :
    (zipEncode [(pointsCup, cupSerialize ⟨List.replicate 43660 [], []⟩)]).length =
      131053 := by
  rw [length_zipEncode, tableBig_len]

/-- C2 (code bug): the backward search reads disjoint 64 KiB chunks and runs
the signature search on each chunk separately, with no overlap, so an EOCD
signature window that spans a chunk cut is invisible.  Concretely, the
container the writer itself produces for a waypoint file with 43660 empty
records and one picture has a points archive larger than one chunk (131053
bytes) and exactly two EOCD signatures (offsets 28 and 131081); the pictures
archive's EOCD window at offset 28 straddles the cut at offset
31 = 131103 − 2·65536, so reading the container back silently degrades to
the no-pictures case: the boundary is reported absent, `NoPicturesArchive`
is warned, and every picture is lost. -/
theorem c2_chunk_straddle_degradation :
    65536 < (zipEncode [(pointsCup, cupSerialize ⟨List.replicate 43660 [], []⟩)]).length ∧
    sigOffsets (writeOut ⟨List.replicate 43660 [], []⟩ [([116], [1, 2, 3])]) =
      [28, 131081] ∧
    fromReaderInner (writeOut ⟨List.replicate 43660 [], []⟩ [([116], [1, 2, 3])]) =
      .ok (⟨⟨List.replicate 43660 [], []⟩, none⟩, [.noPicturesArchive]) ∧
    CupxFile.picture_names ⟨⟨List.replicate 43660 [], []⟩, none⟩ = [] := by
  have htA : (tableOf (picsEntries [([116], [1, 2, 3])])).length = 28 := by decide
  have hlA : (zipEncode (picsEntries [([116], [1, 2, 3])])).length = 50 := by decide
  have hstream : (zipEncode (picsEntries [([116], [1, 2, 3])]) ++
      zipEncode [(pointsCup, cupSerialize ⟨List.replicate 43660 [], []⟩)]).length =
      131103 := by
    rw [List.length_append, hlA, zipBig_len]
  refine ⟨by rw [zipBig_len]; norm_num, ?_, ?_, rfl⟩
  · rw [writeOut, sigOffsets_two, htA, hlA, tableBig_len]
  · rw [writeOut]
    apply fromReaderInner_two_straddled
    · rw [tableBig_len]
      norm_num
    · rw [hstream, htA]
      decide

/-- C5 counterexample: an unrelated single-entry archive prepended to the
writer's output for the 43660-record waypoint file with one picture.  The
middle (pictures) EOCD window at offset 59 straddles the chunk cut at
offset 62 = 131134 − 2·65536, so the locator pairs the trailing occurrence
with the *leading* junk archive's EOCD: parsing "succeeds" with zero
warnings, but the junk archive is served as the pictures archive and the
real picture named `t` disappears — `picture_names` is empty instead of
containing the picture of the last-two archives. -/
theorem c5_counterexample :
    fromReaderInner (zipEncode [([101], [9])] ++
        writeOut ⟨List.replicate 43660 [], []⟩ [([116], [1, 2, 3])]) =
      .ok (⟨⟨List.replicate 43660 [], []⟩, some [([101], [9])]⟩, []) ∧
    CupxFile.picture_names ⟨⟨List.replicate 43660 [], []⟩, some [([101], [9])]⟩ = [] ∧
    ([] : List (List Nat)) ≠ [[116]] := by
  have htZ : (tableOf [([101], [9])]).length = 9 := by decide
  have hlZ : (zipEncode [([101], [9])]).length = 31 := by decide
  have htA : (tableOf (picsEntries [([116], [1, 2, 3])])).length = 28 := by decide
  have hlA : (zipEncode (picsEntries [([116], [1, 2, 3])])).length = 50 := by decide
  have hstream : (zipEncode [([101], [9])] ++ zipEncode (picsEntries [([116], [1, 2, 3])]) ++
      zipEncode [(pointsCup, cupSerialize ⟨List.replicate 43660 [], []⟩)]).length =
      131134 := by
    rw [List.length_append, List.length_append, hlZ, hlA, zipBig_len]
  refine ⟨?_, by decide, by decide⟩
  rw [writeOut, ← List.append_assoc]
  apply fromReaderInner_three_straddled
  · decide
  · rw [tableBig_len]
    norm_num
  · rw [hstream, htZ]
    decide
  · rw [hstream, hlZ, htA]
    decide

/-- C5 (amended): extra-leading-archive tolerance, under the provisos that
the pictures archive's EOCD window does not straddle a chunk cut of the
backward search, the encoded tables fit the EOCD size field, and the picture
names have valid UTF-8 starts and are pairwise case-insensitively distinct:
the stream formed by prepending an unrelated archive to the writer's output
parses with zero warnings, the leading archive is silently excluded, and the
waypoints, tasks, picture names and picture bytes of the last two archives
are all served exactly. -/
theorem c5_leading_archive_tolerance (es0 : List (List Nat × List Nat)) (M : CupFile)
    (P : List (List Nat × List Nat))
    (hutf : ∀ p ∈ P, utf8StartOk p.1 = true)
    (hci : P.Pairwise (fun p q => lowerStr p.1 ≠ lowerStr q.1))
    (hT1 : (tableOf (picsEntries P)).length < 16 ^ 16)
    (hT2 : (tableOf [(pointsCup, cupSerialize M)]).length < 16 ^ 16)
    (hfa : found (zipEncode es0 ++ zipEncode (picsEntries P) ++
        zipEncode [(pointsCup, cupSerialize M)]).length
      ((zipEncode es0).length + (tableOf (picsEntries P)).length) = true) :
    ∃ f, fromReaderInner (zipEncode es0 ++ writeOut M P) = .ok (f, []) ∧
      f.waypoints = M.waypoints ∧ f.tasks = M.tasks ∧
      f.picture_names = P.map (fun p => p.1) ∧
      ∀ p ∈ P, f.read_picture p.1 = .ok p.2 := by
  refine ⟨⟨M, some (picsEntries P)⟩, ?_, rfl, rfl, picture_names_entries M P hutf,
    fun p hp => read_picture_entries M P p.1 p.2 hutf hci hp⟩
  rw [writeOut, ← List.append_assoc]
  exact fromReaderInner_three es0 M P hT1 hT2 hfa

set_option maxRecDepth 8000 in
/-- C5 witness. -/
theorem c5_leading_archive_tolerance_witness :
    ((∀ p ∈ [([97], [7])], utf8StartOk p.1 = true) ∧
      (tableOf (picsEntries [([97], [7])])).length < 16 ^ 16 ∧
      (tableOf [(pointsCup, cupSerialize ⟨[[1]], []⟩)]).length < 16 ^ 16 ∧
      found (zipEncode [([101], [9])] ++ zipEncode (picsEntries [([97], [7])]) ++
          zipEncode [(pointsCup, cupSerialize ⟨[[1]], []⟩)]).length
        ((zipEncode [([101], [9])]).length + (tableOf (picsEntries [([97], [7])])).length)
        = true) ∧
    (∃ f, fromReaderInner (zipEncode [([101], [9])] ++ writeOut ⟨[[1]], []⟩ [([97], [7])]) =
        .ok (f, []) ∧
      f.waypoints = [[1]] ∧ f.tasks = [] ∧ f.picture_names = [[97]] ∧
      ∀ p ∈ [([97], [7])], f.read_picture p.1 = .ok p.2) := by
  have h := c5_leading_archive_tolerance [([101], [9])] ⟨[[1]], []⟩ [([97], [7])]
    (by decide) (by simp) (by decide) (by decide) (by decide)
  exact ⟨⟨by decide, by decide, by decide, by decide⟩, h⟩

end Cupx
